import Mathlib

/-!
Verification of the dyson-swarm task store: a shallow embedding of the
TaskManager, StatusUtils, and schema-version components, together with
proofs of the documented properties (status-index algebra, the
status-exclusivity invariant, create/update/delete behaviour, the schema
version gate, and dependency-cycle rejection).

The embedding mirrors the TypeScript sources: status index files are
modelled as lists of lines, task files as an association list from
fully-qualified task ids to file data, and JavaScript string quirks
(trimming, truthiness of strings, parseInt) are modelled explicitly.
-/

namespace DysonSwarm

/-- Whitespace characters recognised by the model of String.prototype.trim. -/
def isWSChar (c : Char) : Bool :=
  c == ' ' || c == '\t' || c == '\n' || c == '\r'

/-- Trim whitespace from both ends of a character list. -/
def trimChars (cs : List Char) : List Char :=
  (cs.dropWhile isWSChar).rdropWhile isWSChar

/-- Model of JavaScript String.prototype.trim. -/
def trimStr (s : String) : String :=
  String.mk (trimChars s.data)

/-- A string unchanged by trimming and non-empty: every id the manager
generates or reads back from a status file has this shape. -/
def cleanStr (x : String) : Prop :=
  trimStr x = x ∧ x ≠ ""

/-- Code-unit lexicographic strict order on character lists, as used by the
default JavaScript Array.prototype.sort comparator. -/
def codeUnitLt : List Char → List Char → Bool
  | [], [] => false
  | [], _ :: _ => true
  | _ :: _, [] => false
  | a :: as, b :: bs =>
    if a.val < b.val then true
    else if b.val < a.val then false
    else codeUnitLt as bs

/-- Non-strict comparator derived from `codeUnitLt`. -/
def leJS (a b : String) : Bool :=
  !(codeUnitLt b.data a.data)

/-- Model of JavaScript Array.prototype.sort with the default string
comparator: some comparison sort producing an ordered permutation. -/
def sortJS (l : List String) : List String :=
  List.insertionSort (fun a b => leJS a b = true) l

/-- JavaScript truthiness of an optional string value (absent or the empty
string are falsy). -/
def truthyStr : Option String → Bool
  | none => false
  | some x => x != ""

/-! ### Status index files (StatusUtils)

A status file is modelled as the list of its lines.  `readStatusFile`
mirrors split/trim/filter/sort, `writeStatusFile` the sort-then-persist
write; the temp-file-and-rename mechanics below the write are not visible
at this level. -/

/-- StatusUtils.readStatusFile: trim each line, drop empty lines, sort. -/
def readStatusFile (file : List String) : List String :=
  sortJS ((file.map trimStr).filter (fun line => line != ""))

/-- StatusUtils.writeStatusFile: persist the ids sorted lexicographically. -/
def writeStatusFile (taskIds : List String) : List String :=
  sortJS taskIds

/-- StatusUtils.addTaskToStatus on a single status file: no-op returning
false when the id is already present, otherwise append and rewrite. -/
def addTaskToStatus (file : List String) (taskId : String) :
    List String × Bool :=
  let currentIds := readStatusFile file
  if taskId ∈ currentIds then (file, false)
  else (writeStatusFile (currentIds ++ [taskId]), true)

/-- StatusUtils.removeTaskFromStatus on a single status file: remove the
first occurrence (indexOf plus slices) and rewrite, or report false. -/
def removeTaskFromStatus (file : List String) (taskId : String) :
    List String × Bool :=
  let currentIds := readStatusFile file
  if taskId ∈ currentIds then (writeStatusFile (currentIds.erase taskId), true)
  else (file, false)

/-! ### Task data model -/

/-- Task lifecycle states (the `open` literal is `open_` here because
`open` is a Lean keyword). -/
inductive TaskStatus where
  | draft
  | open_
  | inProgress
  | closed
deriving DecidableEq

/-- The four statuses in the order StatusUtils iterates them. -/
def allStatuses : List TaskStatus :=
  [.draft, .open_, .inProgress, .closed]

/-- Task frontmatter: title always present, assignee and dependsOn
optional. -/
structure TaskFrontmatter where
  title : String
  assignee : Option String := none
  dependsOn : Option (List String) := none
deriving DecidableEq

/-- What a task file on disk stores: frontmatter plus description body
(the status lives only in the status index). -/
structure TaskFileData where
  frontmatter : TaskFrontmatter
  description : String
deriving DecidableEq

/-- A fully loaded task as returned by the manager. -/
structure Task where
  id : String
  frontmatter : TaskFrontmatter
  description : String
  status : TaskStatus
deriving DecidableEq

/-- Options accepted by createTask. -/
structure CreateTaskOptions where
  title : String
  description : String
  assignee : Option String := none
  parentTaskId : Option String := none
  dependsOn : Option (List String) := none

/-- Options accepted by updateTask; `none` models an absent field, which
at runtime is indistinguishable from a field explicitly set to
`undefined`. -/
structure UpdateTaskOptions where
  title : Option String := none
  description : Option String := none
  assignee : Option String := none
  dependsOn : Option (List String) := none

/-- The on-disk task files: fully-qualified id to file data. -/
def Files := List (String × TaskFileData)

/-- The four status index files. -/
def Indexes := TaskStatus → List String

/-- The whole `.swarm` store as the TaskManager sees it. -/
structure Store where
  files : Files
  idx : Indexes

/-- Look up a task file by its fully-qualified id. -/
def fileLookup (files : Files) (taskId : String) : Option TaskFileData :=
  (files.find? (fun kv => kv.1 == taskId)).map (fun kv => kv.2)

/-- Write a task file: replace the entry in place or append a new one. -/
def putFile : Files → String → TaskFileData → Files
  | [], taskId, d => [(taskId, d)]
  | (k, v) :: rest, taskId, d =>
    if k = taskId then (taskId, d) :: rest
    else (k, v) :: putFile rest taskId d

/-- Update one status index file, leaving the others alone. -/
def setIdx (idx : Indexes) (st : TaskStatus) (l : List String) : Indexes :=
  fun s => if s = st then l else idx s

/-- addTaskToStatus lifted to the four index files. -/
def addTaskToStatusIdx (idx : Indexes) (taskId : String) (st : TaskStatus) :
    Indexes × Bool :=
  let r := addTaskToStatus (idx st) taskId
  (setIdx idx st r.1, r.2)

/-- removeTaskFromStatus lifted to the four index files. -/
def removeTaskFromStatusIdx (idx : Indexes) (taskId : String)
    (st : TaskStatus) : Indexes × Bool :=
  let r := removeTaskFromStatus (idx st) taskId
  (setIdx idx st r.1, r.2)

/-- StatusUtils.moveTaskStatus: remove from the old status when known,
then add to the new one. -/
def moveTaskStatusIdx (idx : Indexes) (taskId : String)
    (fromStatus : Option TaskStatus) (toStatus : TaskStatus) : Indexes :=
  let idx1 := match fromStatus with
    | some st => (removeTaskFromStatusIdx idx taskId st).1
    | none => idx
  (addTaskToStatusIdx idx1 taskId toStatus).1

/-- StatusUtils.findTaskStatus: linear scan of the four files in order. -/
def findTaskStatus (idx : Indexes) (taskId : String) : Option TaskStatus :=
  allStatuses.find? (fun st => decide (taskId ∈ readStatusFile (idx st)))

/-! ### Path-derived structure

A task id encodes its own path: subtask ids are slash-joined chains, so
directory structure is recovered from the id set. -/

/-- taskId.includes('/'): the subtask dispatch test. -/
def hasSlash (s : String) : Bool :=
  s.data.contains '/'

/-- `f` lies strictly inside the directory tree of task `t`
(its id extends `t` with a slash). -/
def isUnder (t f : String) : Bool :=
  List.isPrefixOf (t.data ++ ['/']) f.data

/-- The immediate child segment of `f` below `t` (first id segment after
`t ++ "/"`). -/
def childSeg (t f : String) : String :=
  String.mk ((f.data.drop (t.data.length + 1)).takeWhile (fun c => c != '/'))

/-- Subdirectory entries of `t`'s sub-tasks directory, derived from the
file set: one entry per distinct immediate child segment. -/
def childSegs (files : Files) (t : String) : List String :=
  ((files.map Prod.fst).filterMap
    (fun f => if isUnder t f then some (childSeg t f) else none)).dedup

/-- The task directory of a top-level task exists: it holds the task's own
file or some descendant's file. -/
def dirExistsB (files : Files) (t : String) : Bool :=
  files.any (fun kv => kv.1 == t || isUnder t kv.1)

/-! ### TaskManager operations -/

/-- TaskManager.loadTaskFromFile / loadSubtask: both read the task file at
the id-derived path and resolve the status via findTaskStatus; a file
without a status entry loads as null. -/
def loadTask (s : Store) (taskId : String) : Option Task :=
  match fileLookup s.files taskId with
  | none => none
  | some d =>
    match findTaskStatus s.idx taskId with
    | none => none
    | some status => some ⟨taskId, d.frontmatter, d.description, status⟩

/-- TaskManager.loadSubtasks: list the sub-tasks directory and load each
immediate child (one level deep). -/
def loadSubtasks (s : Store) (parentId : String) : List Task :=
  (childSegs s.files parentId).filterMap
    (fun c => loadTask s (parentId ++ "/" ++ c))

/-- TaskManager.createTask.  `newId` stands for the generated uuid.  The
subtask branch is taken when `options.parentTaskId` is truthy; it stores
only the title in the frontmatter and always indexes under open. -/
def createTask (s : Store) (newId : String) (options : CreateTaskOptions) :
    Store × Task :=
  let status : TaskStatus :=
    if truthyStr options.assignee then .inProgress else .open_
  match options.parentTaskId with
  | some parent =>
    if parent = "" then
      let task : Task :=
        ⟨newId, ⟨options.title, options.assignee, none⟩, options.description,
          status⟩
      (⟨putFile s.files newId ⟨task.frontmatter, task.description⟩,
        (addTaskToStatusIdx s.idx newId status).1⟩, task)
    else
      let fullyQualifiedId := parent ++ "/" ++ newId
      let task : Task :=
        ⟨fullyQualifiedId, ⟨options.title, none, none⟩, options.description,
          .open_⟩
      (⟨putFile s.files fullyQualifiedId ⟨task.frontmatter, task.description⟩,
        (addTaskToStatusIdx s.idx fullyQualifiedId .open_).1⟩, task)
  | none =>
    let task : Task :=
      ⟨newId, ⟨options.title, options.assignee, none⟩, options.description,
        status⟩
    (⟨putFile s.files newId ⟨task.frontmatter, task.description⟩,
      (addTaskToStatusIdx s.idx newId status).1⟩, task)

/-- Apply the provided updateTask field changes (each compared against
undefined, i.e. `none`). -/
def applyUpdates (task : Task) (options : UpdateTaskOptions) : Task :=
  let task := match options.title with
    | some t => { task with frontmatter := { task.frontmatter with title := t } }
    | none => task
  let task := match options.description with
    | some d => { task with description := d }
    | none => task
  match options.assignee with
  | some a => { task with frontmatter := { task.frontmatter with assignee := some a } }
  | none => task

/-- TaskManager.updateTask: load, apply field changes, derive the implicit
status transition (top-level tasks only), move the index entry if the
status changed, and rewrite the task file. -/
def updateTask (s : Store) (taskId : String) (options : UpdateTaskOptions) :
    Store × Option Task :=
  let isSubtask := hasSlash taskId
  match loadTask s taskId with
  | none => (s, none)
  | some task0 =>
    let currentStatus := task0.status
    let task1 := applyUpdates task0 options
    let step : TaskStatus × Task :=
      if isSubtask = false then
        if truthyStr options.assignee = true ∧ currentStatus = .open_ then
          (.inProgress, task1)
        else if options.assignee = none ∧
            (currentStatus = .inProgress ∨ currentStatus = .closed) then
          (.open_, { task1 with frontmatter := { task1.frontmatter with assignee := none } })
        else (currentStatus, task1)
      else (currentStatus, task1)
    let newStatus := step.1
    let task2 := step.2
    let idx :=
      if newStatus ≠ currentStatus then
        moveTaskStatusIdx s.idx taskId (some currentStatus) newStatus
      else s.idx
    let task3 := { task2 with status := newStatus }
    (⟨putFile s.files taskId ⟨task3.frontmatter, task3.description⟩, idx⟩,
      some task3)

/-- TaskManager.changeTaskStatus: no-op when the status is unchanged,
otherwise move the index entry and rewrite the file. -/
def changeTaskStatus (s : Store) (taskId : String) (newStatus : TaskStatus) :
    Store × Option Task :=
  match loadTask s taskId with
  | none => (s, none)
  | some task =>
    if task.status = newStatus then (s, some task)
    else
      let task' := { task with status := newStatus }
      (⟨putFile s.files taskId ⟨task'.frontmatter, task'.description⟩,
        moveTaskStatusIdx s.idx taskId (some task.status) newStatus⟩,
        some task')

/-- Fold of removeTaskFromStatus over a list of (id, status) pairs. -/
def removePairsIdx (idx : Indexes) : List (String × TaskStatus) → Indexes
  | [] => idx
  | p :: rest => removePairsIdx (removeTaskFromStatusIdx idx p.1 p.2).1 rest

/-- TaskManager.deleteTask.  Subtask ids remove their own index entry and
directory; top-level ids remove their own entry, then the entries of the
loaded direct-child subtasks, then the whole directory tree. -/
def deleteTask (s : Store) (taskId : String) : Store × Bool :=
  if hasSlash taskId then
    match fileLookup s.files taskId with
    | none => (s, false)
    | some _ =>
      let idx1 := match findTaskStatus s.idx taskId with
        | some st => (removeTaskFromStatusIdx s.idx taskId st).1
        | none => s.idx
      let files := s.files.filter
        (fun kv => !(kv.1 == taskId || isUnder taskId kv.1))
      (⟨files, idx1⟩, true)
  else
    if dirExistsB s.files taskId then
      let idx1 := match findTaskStatus s.idx taskId with
        | some st => (removeTaskFromStatusIdx s.idx taskId st).1
        | none => s.idx
      let subtasks := loadSubtasks ⟨s.files, idx1⟩ taskId
      let idx2 := removePairsIdx idx1 (subtasks.map (fun t => (t.id, t.status)))
      let files := s.files.filter
        (fun kv => !(kv.1 == taskId || isUnder taskId kv.1))
      (⟨files, idx2⟩, true)
    else (s, false)

/-- TaskManager.assignTask: thin wrapper over updateTask. -/
def assignTask (s : Store) (taskId : String) (assignee : String) :
    Store × Option Task :=
  updateTask s taskId { assignee := some assignee }

/-- TaskManager.unassignTask: updateTask with assignee undefined. -/
def unassignTask (s : Store) (taskId : String) : Store × Option Task :=
  updateTask s taskId { assignee := none }

/-! ### Reachable store states and the status-exclusivity invariant -/

/-- The store produced by `init`: no files, four empty status files. -/
def emptyStore : Store :=
  ⟨[], fun _ => []⟩

/-- The fully-qualified id a createTask call will use. -/
def createdId (newId : String) (options : CreateTaskOptions) : String :=
  match options.parentTaskId with
  | some parent => if parent = "" then newId else parent ++ "/" ++ newId
  | none => newId

/-- A generated id is fresh for the store: no task file uses it and no
status file mentions it (uuid collisions are statistically excluded). -/
def FreshId (s : Store) (taskId : String) : Prop :=
  fileLookup s.files taskId = none ∧
    ∀ st, taskId ∉ readStatusFile (s.idx st)

/-- Store states reachable through TaskManager operations from an empty
store.  Created ids carry the uuid contract: clean (no surrounding
whitespace, non-empty) and fresh. -/
inductive Reachable : Store → Prop where
  | init : Reachable emptyStore
  | create {s : Store} (newId : String) (options : CreateTaskOptions) :
      Reachable s → cleanStr (createdId newId options) →
      FreshId s (createdId newId options) →
      Reachable (createTask s newId options).1
  | update {s : Store} (taskId : String) (options : UpdateTaskOptions) :
      Reachable s → Reachable (updateTask s taskId options).1
  | changeStatus {s : Store} (taskId : String) (st : TaskStatus) :
      Reachable s → Reachable (changeTaskStatus s taskId st).1
  | delete {s : Store} (taskId : String) :
      Reachable s → Reachable (deleteTask s taskId).1
  | assign {s : Store} (taskId a : String) :
      Reachable s → Reachable (assignTask s taskId a).1
  | unassign {s : Store} (taskId : String) :
      Reachable s → Reachable (unassignTask s taskId).1

/-- Membership of an id in one status index (through the read view). -/
def memIdx (s : Store) (st : TaskStatus) (taskId : String) : Prop :=
  taskId ∈ readStatusFile (s.idx st)

/-- In how many of the four status indexes an id appears. -/
def statusCount (s : Store) (taskId : String) : Nat :=
  List.countP (fun st => decide (taskId ∈ readStatusFile (s.idx st)))
    allStatuses

/-- Every task with a file is indexed under exactly one status. -/
def StatusExclusive (s : Store) : Prop :=
  ∀ taskId, (fileLookup s.files taskId).isSome → statusCount s taskId = 1

/-- Each status index lists an id at most once. -/
def IdxNodup (s : Store) : Prop :=
  ∀ st, (readStatusFile (s.idx st)).Nodup

/-- The inductive invariant maintained by every operation. -/
def InvFull (s : Store) : Prop :=
  StatusExclusive s ∧ IdxNodup s

/-- A direct child of `taskId` that deleteTask's one-level enumeration
loads (and whose index entry it therefore removes): a child segment with
an existing task file and a resolvable status. -/
def LoadedChild (s : Store) (taskId y : String) : Prop :=
  ∃ c, c ∈ childSegs s.files taskId ∧ y = taskId ++ "/" ++ c ∧
    (loadTask s y).isSome

/-! ### Schema version gate -/

/-- Current supported schema version. -/
def CURRENT_SCHEMA_VERSION : Int := 3

/-- The persisted `.swarm/version` marker: missing, unreadable, or some
text content. -/
inductive VersionFile where
  | absent
  | unreadable
  | content (text : String)
deriving DecidableEq

/-- Decimal digit test for the parseInt model. -/
def isDigitChar (c : Char) : Bool :=
  '0' ≤ c && c ≤ '9'

/-- Numeric value of a run of decimal digits. -/
def digitsVal (ds : List Char) : Nat :=
  ds.foldl (fun acc c => acc * 10 + (c.toNat - '0'.toNat)) 0

/-- Model of JavaScript parseInt(s, 10): skip leading whitespace, read an
optional sign, then the longest run of decimal digits; NaN (here `none`)
when no digit is found, trailing text ignored. -/
def parseIntJS (s : String) : Option Int :=
  let cs := s.data.dropWhile isWSChar
  let signed : Int × List Char :=
    match cs with
    | '-' :: r => (-1, r)
    | '+' :: r => (1, r)
    | r => (1, r)
  let ds := signed.2.takeWhile isDigitChar
  if ds.isEmpty then none else some (signed.1 * (digitsVal ds : Int))

/-- readSchemaVersion: 0 when the file is missing or unreadable, else
parseInt of the trimmed content with NaN collapsing to 0. -/
def readSchemaVersion : VersionFile → Int
  | .absent => 0
  | .unreadable => 0
  | .content text =>
    match parseIntJS (trimStr text) with
    | none => 0
    | some v => v

/-- Decimal rendering of the version, as version.toString() persists it. -/
def renderVersion (v : Int) : String :=
  if v < 0 then "-" ++ String.mk (Nat.toDigits 10 (-v).toNat)
  else String.mk (Nat.toDigits 10 v.toNat)

/-- The versions a migration loop from `fromVersion` visits:
fromVersion+1, ..., CURRENT_SCHEMA_VERSION in ascending order. -/
def migrationVersions (fromVersion : Int) : List Int :=
  (List.range (CURRENT_SCHEMA_VERSION - fromVersion).toNat).map
    (fun i : Nat => fromVersion + 1 + (i : Int))

/-- Raised when the persisted version is newer than supported. -/
inductive UnsupportedSchemaError where
  | mk
deriving DecidableEq

deriving instance DecidableEq for Except

/-- migrateToLatest: run the migration step of each visited version that
has a migration module (`avail`), in ascending order, then persist the
current version.  The result pairs the new version file with the list of
migration steps that ran. -/
def migrateToLatest (avail : Int → Bool) (currentVersion : Int) :
    VersionFile × List Int :=
  (.content (renderVersion CURRENT_SCHEMA_VERSION),
    (migrationVersions currentVersion).filter avail)

/-- ensureSchemaVersion: version 0 initializes directly to current (no
migrations); an older version migrates; a newer version fails; the
current version is a no-op. -/
def ensureSchemaVersion (avail : Int → Bool) (f : VersionFile) :
    Except UnsupportedSchemaError (VersionFile × List Int) :=
  let currentVersion := readSchemaVersion f
  if currentVersion = 0 then
    .ok (.content (renderVersion CURRENT_SCHEMA_VERSION), [])
  else if currentVersion < CURRENT_SCHEMA_VERSION then
    .ok (migrateToLatest avail currentVersion)
  else if currentVersion > CURRENT_SCHEMA_VERSION then
    .error .mk
  else
    .ok (f, [])

/-! ### Dependency graph operations (schema version 3)

The dependency methods of TaskManager are exercised by the CLI and its
tests but their implementation is not part of the sources; they are
modelled from the specification below. -/

/-- The store restricted to what dependency operations touch: each task id
with its dependsOn list. -/
def DepGraph := List (String × List String)

instance : DecidableEq DepGraph :=
  inferInstanceAs (DecidableEq (List (String × List String)))

/-- The dependsOn list of a task (empty when the task is absent). -/
def depsOf : DepGraph → String → List String
  | [], _ => []
  | (k, ds) :: rest, x => if k = x then ds else depsOf rest x

/-- The task ids present in the store. -/
def keysOf (g : DepGraph) : List String :=
  g.map Prod.fst

/-- A dependency chain from `a` to `b`: `ChainTo g a l b` walks the
dependsOn edges through the intermediate nodes `l` (ending in `b` unless
the chain is empty and `a = b`). -/
inductive ChainTo (g : DepGraph) : String → List String → String → Prop where
  | nil (a : String) : ChainTo g a [] a
  | cons {a y b : String} {l : List String} :
      y ∈ depsOf g a → ChainTo g y l b → ChainTo g a (y :: l) b

/-- One step of the dependency-graph walk: keep the frontier and add every
direct dependency of a frontier node. -/
def reachStep (g : DepGraph) (s : List String) : List String :=
  s ++ s.flatMap (depsOf g)

/-- All nodes reachable from `a` in at most `n` steps. -/
def reachList (g : DepGraph) (a : String) : Nat → List String
  | 0 => [a]
  | n + 1 => reachStep g (reachList g a n)

/-- Executable reachability test used by the cycle check: `g.length`
steps suffice because every non-final chain node owns an edge. -/
def canReach (g : DepGraph) (a b : String) : Bool :=
  decide (b ∈ reachList g a g.length)

/-- Result of a dependency-add: rejected with CircularDependencyError
(store untouched), task not found, or the updated store. -/
inductive DepAddResult where
  | circular (store : DepGraph)
  | notFound
  | ok (store : DepGraph)
deriving DecidableEq

/-- Modelled from the spec: `addTaskDependency(id, depId)` is absent from
the sources (only its CLI caller and tests survive).  Following the spec,
it walks the dependency graph from depId looking for a path back to id and
rejects with a CircularDependencyError before any mutation when one
exists; otherwise it appends depId to the task's dependsOn set. -/
def addTaskDependency (g : DepGraph) (taskId depId : String) : DepAddResult :=
  if canReach g depId taskId then .circular g
  else
    match g.find? (fun kv => kv.1 == taskId) with
    | none => .notFound
    | some _ =>
      .ok (g.map (fun kv =>
        if kv.1 = taskId then (kv.1, kv.2 ++ [depId]) else kv))

/-! ### Concrete stores used to exercise the theorems -/

/-- A task file body shared by the example stores. -/
def exData : TaskFileData :=
  ⟨⟨"Title", none, none⟩, "Body"⟩

/-- A task file with an assignee recorded. -/
def exDataAssigned : TaskFileData :=
  ⟨⟨"Title", some "john.doe", none⟩, "Body"⟩

/-- A store with a top-level task `a`, child `a/b` and grandchild
`a/b/c`, all indexed as open. -/
def cascadeStore : Store :=
  ⟨[("a", exData), ("a/b", exData), ("a/b/c", exData)],
    fun st => if st = .open_ then ["a", "a/b", "a/b/c"] else []⟩

/-- A store with one in-progress, assigned top-level task `t`. -/
def inProgressStore : Store :=
  ⟨[("t", exDataAssigned)], fun st => if st = .inProgress then ["t"] else []⟩

/-- A store with one open, unassigned top-level task `t`. -/
def openStore : Store :=
  ⟨[("t", exData)], fun st => if st = .open_ then ["t"] else []⟩

/-- A dependency graph where `a` depends on `b` and `c` stands alone. -/
def exDepGraph : DepGraph :=
  [("a", ["b"]), ("b", []), ("c", [])]

/-! ## Lemmas: trimming and sorting -/

theorem dropWhile_eq_self_of_isPre {α : Type} {p : α → Bool} {l l' : List α}
    (h : l' <+: l) (hl : List.dropWhile p l = l) :
    List.dropWhile p l' = l' := by
  cases l' with
  | nil => simp
  | cons a t =>
    obtain ⟨r, hr⟩ := h
    rw [← hr, List.cons_append, List.dropWhile_cons] at hl
    by_cases hpa : p a = true
    · rw [if_pos hpa] at hl
      have hlen : (List.dropWhile p (t ++ r)).length = (t ++ r).length + 1 := by
        rw [hl]
        simp
      have hle := (List.dropWhile_sublist (l := t ++ r) p).length_le
      omega
    · rw [List.dropWhile_cons, if_neg hpa]

theorem trimChars_idem (cs : List Char) :
    trimChars (trimChars cs) = trimChars cs := by
  unfold trimChars
  rw [dropWhile_eq_self_of_isPre ( List.rdropWhile_prefix _ _)
        (List.dropWhile_idempotent _ _),
      List.rdropWhile_idempotent]

theorem trimStr_idem (s : String) : trimStr (trimStr s) = trimStr s := by
  unfold trimStr
  rw [show (String.mk (trimChars s.data)).data = trimChars s.data from rfl,
    trimChars_idem]

theorem perm_sortJS (l : List String) : (sortJS l).Perm l :=
  List.perm_insertionSort _ l

theorem mem_sortJS {l : List String} {y : String} :
    y ∈ sortJS l ↔ y ∈ l :=
  (perm_sortJS l).mem_iff

theorem count_sortJS (l : List String) (y : String) :
    List.count y (sortJS l) = List.count y l :=
  (perm_sortJS l).count_eq y

theorem nodup_sortJS {l : List String} : (sortJS l).Nodup ↔ l.Nodup :=
  (perm_sortJS l).nodup_iff

theorem readStatusFile_clean {file : List String} {x : String}
    (hx : x ∈ readStatusFile file) : cleanStr x := by
  unfold readStatusFile at hx
  have hx' := mem_sortJS.1 hx
  rw [List.mem_filter] at hx'
  obtain ⟨hmem, hne⟩ := hx'
  obtain ⟨y, _, rfl⟩ := List.mem_map.1 hmem
  refine ⟨trimStr_idem y, ?_⟩
  simpa using hne

theorem readStatusFile_writeStatusFile {l : List String}
    (h : ∀ x ∈ l, cleanStr x) :
    (readStatusFile (writeStatusFile l)).Perm l := by
  unfold readStatusFile writeStatusFile
  have hmap : (sortJS l).map trimStr = sortJS l := by
    rw [List.map_congr_left (g := id) (fun x hx => (h x (mem_sortJS.1 hx)).1),
      List.map_id]
  rw [hmap]
  have hfil : (sortJS l).filter (fun line => line != "") = sortJS l :=
    List.filter_eq_self.2 (fun x hx => by
      simpa [bne] using (h x (mem_sortJS.1 hx)).2)
  rw [hfil]
  exact (perm_sortJS _).trans (perm_sortJS _)

theorem mem_readStatusFile_writeStatusFile {l : List String} {y : String}
    (h : ∀ x ∈ l, cleanStr x) :
    y ∈ readStatusFile (writeStatusFile l) ↔ y ∈ l :=
  (readStatusFile_writeStatusFile h).mem_iff

/-! ## Claim C8: status-index add is an idempotent set insert -/

/-- C8: for every status file and task id, if the id is already present
`add` returns false and leaves the file unchanged; if it is absent, `add`
returns true and afterwards the file lists the id exactly once. -/
theorem addTaskToStatus_idem_count (file : List String) (taskId : String) :
    (taskId ∈ readStatusFile file → addTaskToStatus file taskId = (file, false)) ∧
    (taskId ∉ readStatusFile file →
      (addTaskToStatus file taskId).2 = true ∧
      List.count taskId (addTaskToStatus file taskId).1 = 1) := by
  constructor
  · intro h
    unfold addTaskToStatus
    simp [h]
  · intro h
    have h2 : addTaskToStatus file taskId =
        (writeStatusFile (readStatusFile file ++ [taskId]), true) := by
      unfold addTaskToStatus
      simp [h]
    rw [h2]
    refine ⟨rfl, ?_⟩
    unfold writeStatusFile
    rw [count_sortJS, List.count_append, List.count_eq_zero.2 h]
    simp

theorem addTaskToStatus_idem_count_witness :
    addTaskToStatus ["a"] "a" = (["a"], false) ∧
    ((addTaskToStatus ["b"] "a").2 = true ∧
      List.count "a" (addTaskToStatus ["b"] "a").1 = 1) :=
  ⟨(addTaskToStatus_idem_count ["a"] "a").1 (by decide),
    (addTaskToStatus_idem_count ["b"] "a").2 (by decide)⟩

/-! ## Lemmas: index files under add / remove / move -/

theorem mem_addIdx (idx : Indexes) (taskId : String) (st0 : TaskStatus)
    (hclean : cleanStr taskId) (st : TaskStatus) (y : String) :
    y ∈ readStatusFile ((addTaskToStatusIdx idx taskId st0).1 st) ↔
      (y ∈ readStatusFile (idx st) ∨ (st = st0 ∧ y = taskId)) := by
  unfold addTaskToStatusIdx addTaskToStatus
  by_cases hmem : taskId ∈ readStatusFile (idx st0)
  · by_cases hst : st = st0
    · subst hst
      simp only [hmem, if_true, setIdx, if_pos rfl, ite_true]
      constructor
      · exact fun h => Or.inl h
      · rintro (h | ⟨-, rfl⟩)
        · exact h
        · exact hmem
    · simp only [hmem, if_true, setIdx, if_neg hst]
      constructor
      · exact fun h => Or.inl h
      · rintro (h | ⟨h1, -⟩)
        · exact h
        · exact absurd h1 hst
  · by_cases hst : st = st0
    · subst hst
      simp only [hmem, if_false, ite_false, setIdx, if_pos rfl, ite_true]
      rw [mem_readStatusFile_writeStatusFile]
      · simp only [List.mem_append, List.mem_singleton]
        tauto
      · intro x hx
        rcases List.mem_append.1 hx with h | h
        · exact readStatusFile_clean h
        · rw [List.mem_singleton] at h
          exact h ▸ hclean
    · simp only [hmem, if_false, ite_false, setIdx, if_neg hst]
      constructor
      · exact fun h => Or.inl h
      · rintro (h | ⟨h1, -⟩)
        · exact h
        · exact absurd h1 hst

theorem nodup_addIdx (idx : Indexes) (taskId : String) (st0 : TaskStatus)
    (hclean : cleanStr taskId)
    (hnd : ∀ st, (readStatusFile (idx st)).Nodup) (st : TaskStatus) :
    (readStatusFile ((addTaskToStatusIdx idx taskId st0).1 st)).Nodup := by
  unfold addTaskToStatusIdx addTaskToStatus
  by_cases hmem : taskId ∈ readStatusFile (idx st0)
  · by_cases hst : st = st0 <;>
      simp only [hmem, if_true, setIdx, hst, if_pos, if_neg, ite_true,
        ite_false] <;> exact hnd _
  · by_cases hst : st = st0
    · subst hst
      simp only [hmem, if_false, ite_false, setIdx, if_pos rfl, ite_true]
      have hcl : ∀ x ∈ readStatusFile (idx st) ++ [taskId], cleanStr x := by
        intro x hx
        rcases List.mem_append.1 hx with h | h
        · exact readStatusFile_clean h
        · rw [List.mem_singleton] at h
          exact h ▸ hclean
      rw [(readStatusFile_writeStatusFile hcl).nodup_iff]
      rw [List.nodup_append]
      exact ⟨hnd st, List.nodup_singleton _, by simpa using hmem⟩
    · simp only [hmem, if_false, ite_false, setIdx, if_neg hst]
      exact hnd _

theorem mem_removeIdx (idx : Indexes) (taskId : String) (st0 : TaskStatus)
    (hnd : (readStatusFile (idx st0)).Nodup) (st : TaskStatus) (y : String) :
    y ∈ readStatusFile ((removeTaskFromStatusIdx idx taskId st0).1 st) ↔
      (y ∈ readStatusFile (idx st) ∧ ¬(st = st0 ∧ y = taskId)) := by
  unfold removeTaskFromStatusIdx removeTaskFromStatus
  by_cases hmem : taskId ∈ readStatusFile (idx st0)
  · by_cases hst : st = st0
    · subst hst
      simp only [hmem, if_true, setIdx, if_pos rfl, ite_true]
      have hcl : ∀ x ∈ (readStatusFile (idx st)).erase taskId, cleanStr x :=
        fun x hx => readStatusFile_clean (List.mem_of_mem_erase hx)
      rw [mem_readStatusFile_writeStatusFile hcl, hnd.mem_erase_iff]
      tauto
    · simp only [hmem, if_true, setIdx, if_neg hst]
      tauto
  · by_cases hst : st = st0
    · subst hst
      simp only [hmem, if_false, ite_false, setIdx, if_pos rfl, ite_true]
      constructor
      · intro h
        refine ⟨h, ?_⟩
        rintro ⟨-, rfl⟩
        exact hmem h
      · tauto
    · simp only [hmem, if_false, ite_false, setIdx, if_neg hst]
      tauto

theorem nodup_removeIdx (idx : Indexes) (taskId : String) (st0 : TaskStatus)
    (hnd : ∀ st, (readStatusFile (idx st)).Nodup) (st : TaskStatus) :
    (readStatusFile ((removeTaskFromStatusIdx idx taskId st0).1 st)).Nodup := by
  unfold removeTaskFromStatusIdx removeTaskFromStatus
  by_cases hmem : taskId ∈ readStatusFile (idx st0)
  · by_cases hst : st = st0
    · subst hst
      simp only [hmem, if_true, setIdx, if_pos rfl, ite_true]
      have hcl : ∀ x ∈ (readStatusFile (idx st)).erase taskId, cleanStr x :=
        fun x hx => readStatusFile_clean (List.mem_of_mem_erase hx)
      rw [(readStatusFile_writeStatusFile hcl).nodup_iff]
      exact (hnd st).erase _
    · simp only [hmem, if_true, setIdx, if_neg hst]
      exact hnd _
  · by_cases hst : st = st0 <;>
      simp only [hmem, if_false, ite_false, setIdx, hst, if_pos, if_neg,
        ite_true] <;> exact hnd _

/-! ## Lemmas: findTaskStatus -/

theorem findTaskStatus_mem {idx : Indexes} {taskId : String} {st : TaskStatus}
    (h : findTaskStatus idx taskId = some st) :
    taskId ∈ readStatusFile (idx st) := by
  unfold findTaskStatus at h
  have := List.find?_some h
  simpa using this

theorem findTaskStatus_eq_none {idx : Indexes} {taskId : String} :
    findTaskStatus idx taskId = none ↔
      ∀ st, taskId ∉ readStatusFile (idx st) := by
  unfold findTaskStatus
  rw [List.find?_eq_none]
  constructor
  · intro h st
    have := h st (by cases st <;> simp [allStatuses])
    simpa using this
  · intro h st _
    simpa using h st

theorem findTaskStatus_unique {idx : Indexes} {taskId : String}
    {st : TaskStatus} (hmem : taskId ∈ readStatusFile (idx st))
    (huniq : ∀ st', taskId ∈ readStatusFile (idx st') → st' = st) :
    findTaskStatus idx taskId = some st := by
  have hcases : ∀ st', st' ≠ st → taskId ∉ readStatusFile (idx st') :=
    fun st' hne h => hne (huniq st' h)
  unfold findTaskStatus allStatuses
  cases st with
  | draft => simp [List.find?, hmem]
  | open_ =>
    have h1 := hcases .draft (by simp)
    simp [List.find?, h1, hmem]
  | inProgress =>
    have h1 := hcases .draft (by simp)
    have h2 := hcases .open_ (by simp)
    simp [List.find?, h1, h2, hmem]
  | closed =>
    have h1 := hcases .draft (by simp)
    have h2 := hcases .open_ (by simp)
    have h3 := hcases .inProgress (by simp)
    simp [List.find?, h1, h2, h3, hmem]

/-! ## Lemmas: task files -/

theorem fileLookup_nil (id : String) : fileLookup [] id = none := rfl

theorem fileLookup_cons (k : String) (v : TaskFileData) (rest : Files)
    (id : String) :
    fileLookup ((k, v) :: rest) id =
      if k = id then some v else fileLookup rest id := by
  by_cases h : k = id
  · subst h
    simp [fileLookup, List.find?]
  · have hb : (k == id) = false := by
      simpa using h
    simp [fileLookup, List.find?, hb, h]

theorem fileLookup_putFile (files : Files) (fqid : String) (d : TaskFileData)
    (id : String) :
    fileLookup (putFile files fqid d) id =
      if id = fqid then some d else fileLookup files id := by
  induction files with
  | nil =>
    rw [putFile.eq_1, fileLookup_cons]
    by_cases h : id = fqid
    · simp [h]
    · have : ¬ fqid = id := fun he => h he.symm
      simp [h, this, fileLookup_nil]
  | cons kv rest ih =>
    obtain ⟨k, v⟩ := kv
    by_cases hk : k = fqid
    · subst hk
      rw [putFile.eq_2, if_pos rfl]
      rw [fileLookup_cons, fileLookup_cons]
      by_cases h : k = id
      · subst h
        simp
      · have : ¬ id = k := fun he => h he.symm
        simp [h, this]
    · rw [putFile.eq_2, if_neg hk]
      rw [fileLookup_cons, fileLookup_cons, ih]
      by_cases h : k = id
      · have : ¬ id = fqid := fun he => hk (h ▸ he ▸ rfl)
        simp [h, this]
      · simp [h]

theorem fileLookup_filterKey (q : String → Bool) (files : Files)
    (id : String) :
    fileLookup (files.filter (fun kv => q kv.1)) id =
      if q id then fileLookup files id else none := by
  induction files with
  | nil =>
    by_cases h : q id <;> simp [fileLookup, h]
  | cons kv rest ih =>
    obtain ⟨k, v⟩ := kv
    by_cases hqk : q k = true
    · rw [List.filter_cons_of_pos (by simpa using hqk), fileLookup_cons,
        fileLookup_cons]
      by_cases h : k = id
      · subst h
        simp [hqk]
      · rw [if_neg h, if_neg h, ih]
    · rw [List.filter_cons_of_neg (by simpa using hqk), fileLookup_cons, ih]
      by_cases h : k = id
      · subst h
        simp [hqk]
      · rw [if_neg h]

theorem loadTask_id {s : Store} {taskId : String} {task : Task}
    (h : loadTask s taskId = some task) : task.id = taskId := by
  unfold loadTask at h
  cases hf : fileLookup s.files taskId with
  | none => rw [hf] at h; exact absurd h (by simp)
  | some d =>
    rw [hf] at h
    cases hs : findTaskStatus s.idx taskId with
    | none => rw [hs] at h; exact absurd h (by simp)
    | some st =>
      rw [hs] at h
      cases h
      rfl

theorem loadTask_some {s : Store} {taskId : String} {task : Task}
    (h : loadTask s taskId = some task) :
    fileLookup s.files taskId = some ⟨task.frontmatter, task.description⟩ ∧
      findTaskStatus s.idx taskId = some task.status := by
  unfold loadTask at h
  cases hf : fileLookup s.files taskId with
  | none => rw [hf] at h; exact absurd h (by simp)
  | some d =>
    rw [hf] at h
    cases hs : findTaskStatus s.idx taskId with
    | none => rw [hs] at h; exact absurd h (by simp)
    | some st =>
      rw [hs] at h
      cases h
      exact ⟨rfl, rfl⟩

/-! ## Lemmas: status counting -/

theorem statusCount_congr {s s' : Store} (taskId : String)
    (h : ∀ st, taskId ∈ readStatusFile (s'.idx st) ↔
      taskId ∈ readStatusFile (s.idx st)) :
    statusCount s' taskId = statusCount s taskId := by
  unfold statusCount
  exact List.countP_congr (fun st _ => by
    simp only [decide_eq_true_eq]
    exact h st)

theorem statusCount_eq_one_iff (s : Store) (taskId : String) :
    statusCount s taskId = 1 ↔
      ∃ st, taskId ∈ readStatusFile (s.idx st) ∧
        ∀ st', taskId ∈ readStatusFile (s.idx st') → st' = st := by
  unfold statusCount
  rw [List.countP_eq_length_filter, List.length_eq_one]
  constructor
  · rintro ⟨st, hst⟩
    have hstmem : st ∈ List.filter
        (fun st => decide (taskId ∈ readStatusFile (s.idx st))) allStatuses := by
      rw [hst]
      exact List.mem_singleton.2 rfl
    refine ⟨st, by simpa using (List.mem_filter.1 hstmem).2, ?_⟩
    intro st' h'
    have hin : st' ∈ List.filter
        (fun st => decide (taskId ∈ readStatusFile (s.idx st))) allStatuses :=
      List.mem_filter.2 ⟨by cases st' <;> simp [allStatuses], by simpa using h'⟩
    rw [hst] at hin
    simpa using hin
  · rintro ⟨st, hmem, huniq⟩
    refine ⟨st, ?_⟩
    have hneg : ∀ st', st' ≠ st →
        decide (taskId ∈ readStatusFile (s.idx st')) = false := by
      intro st' hne
      simp only [decide_eq_false_iff_not]
      exact fun hx => hne (huniq st' hx)
    cases st with
    | draft =>
      simp [allStatuses, List.filter, hmem, hneg .open_ (by simp),
        hneg .inProgress (by simp), hneg .closed (by simp)]
    | open_ =>
      simp [allStatuses, List.filter, hmem, hneg .draft (by simp),
        hneg .inProgress (by simp), hneg .closed (by simp)]
    | inProgress =>
      simp [allStatuses, List.filter, hmem, hneg .draft (by simp),
        hneg .open_ (by simp), hneg .closed (by simp)]
    | closed =>
      simp [allStatuses, List.filter, hmem, hneg .draft (by simp),
        hneg .open_ (by simp), hneg .inProgress (by simp)]

/-! ## Lemmas: move and bulk removal -/

theorem mem_moveIdx (idx : Indexes) (taskId : String) (cur new : TaskStatus)
    (hclean : cleanStr taskId)
    (hnd : ∀ st, (readStatusFile (idx st)).Nodup) (st : TaskStatus)
    (y : String) :
    y ∈ readStatusFile ((moveTaskStatusIdx idx taskId (some cur) new) st) ↔
      ((y ∈ readStatusFile (idx st) ∧ ¬(st = cur ∧ y = taskId)) ∨
        (st = new ∧ y = taskId)) := by
  unfold moveTaskStatusIdx
  rw [mem_addIdx _ _ _ hclean, mem_removeIdx _ _ _ (hnd cur)]

theorem nodup_moveIdx (idx : Indexes) (taskId : String) (cur new : TaskStatus)
    (hclean : cleanStr taskId)
    (hnd : ∀ st, (readStatusFile (idx st)).Nodup) (st : TaskStatus) :
    (readStatusFile ((moveTaskStatusIdx idx taskId (some cur) new) st)).Nodup := by
  unfold moveTaskStatusIdx
  exact nodup_addIdx _ _ _ hclean (fun st' => nodup_removeIdx _ _ _ hnd st') st

theorem mem_removePairsIdx (pairs : List (String × TaskStatus)) :
    ∀ (idx : Indexes), (∀ st, (readStatusFile (idx st)).Nodup) →
    ∀ (st : TaskStatus) (y : String),
      y ∈ readStatusFile ((removePairsIdx idx pairs) st) ↔
        (y ∈ readStatusFile (idx st) ∧
          ∀ p ∈ pairs, ¬(st = p.2 ∧ y = p.1)) := by
  induction pairs with
  | nil =>
    intro idx _ st y
    simp [removePairsIdx]
  | cons p rest ih =>
    intro idx hnd st y
    rw [show removePairsIdx idx (p :: rest) =
        removePairsIdx (removeTaskFromStatusIdx idx p.1 p.2).1 rest from rfl]
    rw [ih _ (fun st' => nodup_removeIdx _ _ _ hnd st'),
      mem_removeIdx _ _ _ (hnd p.2), List.forall_mem_cons]
    tauto

theorem nodup_removePairsIdx (pairs : List (String × TaskStatus)) :
    ∀ (idx : Indexes), (∀ st, (readStatusFile (idx st)).Nodup) →
    ∀ st, (readStatusFile ((removePairsIdx idx pairs) st)).Nodup := by
  induction pairs with
  | nil =>
    intro idx hnd st
    simpa [removePairsIdx] using hnd st
  | cons p rest ih =>
    intro idx hnd st
    rw [show removePairsIdx idx (p :: rest) =
        removePairsIdx (removeTaskFromStatusIdx idx p.1 p.2).1 rest from rfl]
    exact ih _ (fun st' => nodup_removeIdx _ _ _ hnd st') st

/-! ## Lemmas: id structure -/

theorem isUnder_append (t c : String) : isUnder t (t ++ "/" ++ c) = true := by
  unfold isUnder
  rw [List.isPrefixOf_iff_prefix]
  refine ⟨c.data, ?_⟩
  rw [String.data_append, String.data_append]

theorem loadSubtasks_id {s : Store} {parentId : String} {task : Task}
    (h : task ∈ loadSubtasks s parentId) :
    ∃ c, task.id = parentId ++ "/" ++ c := by
  unfold loadSubtasks at h
  obtain ⟨c, -, hc⟩ := List.mem_filterMap.1 h
  exact ⟨c, loadTask_id hc⟩

/-! ## Lemmas: invariant preservation -/

theorem statusCount_eq_one_of_unique {s : Store} {taskId : String}
    {st : TaskStatus} (hmem : taskId ∈ readStatusFile (s.idx st))
    (huniq : ∀ st', taskId ∈ readStatusFile (s.idx st') → st' = st) :
    statusCount s taskId = 1 :=
  (statusCount_eq_one_iff s taskId).2 ⟨st, hmem, huniq⟩

theorem invFull_empty : InvFull emptyStore := by
  constructor
  · intro taskId hid
    exact absurd hid (by simp [emptyStore, fileLookup_nil])
  · intro st
    simp [emptyStore, readStatusFile, sortJS, List.insertionSort]

theorem invFull_addFile {s : Store} (fqid : String) (d : TaskFileData)
    (st0 : TaskStatus) (hclean : cleanStr fqid) (hfresh : FreshId s fqid)
    (h : InvFull s) :
    InvFull ⟨putFile s.files fqid d, (addTaskToStatusIdx s.idx fqid st0).1⟩ := by
  obtain ⟨hex, hnd⟩ := h
  constructor
  · intro id hid
    simp only [fileLookup_putFile] at hid
    by_cases hidf : id = fqid
    · subst hidf
      refine @statusCount_eq_one_of_unique _ _ st0 ?_ ?_
      · show id ∈ readStatusFile ((addTaskToStatusIdx s.idx id st0).1 st0)
        rw [mem_addIdx _ _ _ hclean]
        exact Or.inr ⟨rfl, rfl⟩
      · intro st' h'
        rw [show (Store.mk (putFile s.files id d)
            (addTaskToStatusIdx s.idx id st0).1).idx =
            (addTaskToStatusIdx s.idx id st0).1 from rfl,
          mem_addIdx _ _ _ hclean] at h'
        rcases h' with h' | ⟨h1, -⟩
        · exact absurd h' (hfresh.2 st')
        · exact h1
    · rw [if_neg hidf] at hid
      have hc := hex id hid
      rw [← hc]
      refine statusCount_congr id ?_
      intro st
      show id ∈ readStatusFile ((addTaskToStatusIdx s.idx fqid st0).1 st) ↔ _
      rw [mem_addIdx _ _ _ hclean]
      constructor
      · rintro (h' | ⟨-, h2⟩)
        · exact h'
        · exact absurd h2 hidf
      · exact fun h' => Or.inl h'
  · intro st
    exact nodup_addIdx _ _ _ hclean hnd st

theorem invFull_write {s : Store} (taskId : String) (d : TaskFileData)
    (hsome : (fileLookup s.files taskId).isSome) (h : InvFull s) :
    InvFull ⟨putFile s.files taskId d, s.idx⟩ := by
  obtain ⟨hex, hnd⟩ := h
  constructor
  · intro id hid
    simp only [fileLookup_putFile] at hid
    have hcnt : statusCount ⟨putFile s.files taskId d, s.idx⟩ id =
        statusCount s id :=
      statusCount_congr id (fun st => Iff.rfl)
    rw [hcnt]
    by_cases hidf : id = taskId
    · subst hidf
      exact hex id hsome
    · rw [if_neg hidf] at hid
      exact hex id hid
  · exact hnd

theorem invFull_moveWrite {s : Store} {taskId : String} {cur : TaskStatus}
    (d : TaskFileData) (new : TaskStatus)
    (hsome : (fileLookup s.files taskId).isSome)
    (hfind : findTaskStatus s.idx taskId = some cur) (h : InvFull s) :
    InvFull ⟨putFile s.files taskId d,
      moveTaskStatusIdx s.idx taskId (some cur) new⟩ := by
  obtain ⟨hex, hnd⟩ := h
  have hclean : cleanStr taskId := readStatusFile_clean (findTaskStatus_mem hfind)
  have huniqcur : ∀ st', taskId ∈ readStatusFile (s.idx st') → st' = cur := by
    have h1 := hex taskId hsome
    obtain ⟨st1, hmem1, huniq1⟩ := (statusCount_eq_one_iff s taskId).1 h1
    have := huniq1 cur (findTaskStatus_mem hfind)
    subst this
    exact huniq1
  constructor
  · intro id hid
    simp only [fileLookup_putFile] at hid
    by_cases hidf : id = taskId
    · subst hidf
      refine @statusCount_eq_one_of_unique _ _ new ?_ ?_
      · show id ∈ readStatusFile ((moveTaskStatusIdx s.idx id (some cur) new) new)
        rw [mem_moveIdx _ _ _ _ hclean hnd]
        exact Or.inr ⟨rfl, rfl⟩
      · intro st' h'
        rw [show (Store.mk (putFile s.files id d)
            (moveTaskStatusIdx s.idx id (some cur) new)).idx =
            moveTaskStatusIdx s.idx id (some cur) new from rfl,
          mem_moveIdx _ _ _ _ hclean hnd] at h'
        rcases h' with ⟨hmem0, hne⟩ | ⟨h1, -⟩
        · exact absurd ⟨huniqcur st' hmem0, rfl⟩ hne
        · exact h1
    · rw [if_neg hidf] at hid
      have hc := hex id hid
      rw [← hc]
      refine statusCount_congr id ?_
      intro st
      show id ∈ readStatusFile ((moveTaskStatusIdx s.idx taskId (some cur) new) st) ↔ _
      rw [mem_moveIdx _ _ _ _ hclean hnd]
      constructor
      · rintro (⟨h', -⟩ | ⟨-, h2⟩)
        · exact h'
        · exact absurd h2 hidf
      · intro h'
        exact Or.inl ⟨h', fun hc2 => hidf hc2.2⟩
  · intro st
    exact nodup_moveIdx _ _ _ _ hclean hnd st

theorem invFull_createTask (s : Store) (newId : String)
    (options : CreateTaskOptions) (hclean : cleanStr (createdId newId options))
    (hfresh : FreshId s (createdId newId options)) (h : InvFull s) :
    InvFull (createTask s newId options).1 := by
  unfold createTask
  cases hp : options.parentTaskId with
  | none =>
    simp only [hp]
    have hclean' : cleanStr newId := by simpa [createdId, hp] using hclean
    have hfresh' : FreshId s newId := by simpa [createdId, hp] using hfresh
    exact invFull_addFile newId _ _ hclean' hfresh' h
  | some parent =>
    by_cases hpe : parent = ""
    · simp only [hp, hpe, if_pos rfl]
      have hclean' : cleanStr newId := by
        simpa [createdId, hp, hpe] using hclean
      have hfresh' : FreshId s newId := by
        simpa [createdId, hp, hpe] using hfresh
      exact invFull_addFile newId _ _ hclean' hfresh' h
    · simp only [hp, if_neg hpe]
      have hclean' : cleanStr (parent ++ "/" ++ newId) := by
        simpa [createdId, hp, hpe] using hclean
      have hfresh' : FreshId s (parent ++ "/" ++ newId) := by
        simpa [createdId, hp, hpe] using hfresh
      exact invFull_addFile (parent ++ "/" ++ newId) _ _ hclean' hfresh' h

set_option maxHeartbeats 1000000 in
theorem invFull_updateTask (s : Store) (taskId : String)
    (options : UpdateTaskOptions) (h : InvFull s) :
    InvFull (updateTask s taskId options).1 := by
  unfold updateTask
  cases hload : loadTask s taskId with
  | none =>
    simp only [hload]
    exact h
  | some task0 =>
    simp only [hload]
    obtain ⟨hsome', hfind'⟩ := loadTask_some hload
    have hsome : (fileLookup s.files taskId).isSome := by
      rw [hsome']
      rfl
    repeat' split
    all_goals
      first
        | exact invFull_moveWrite _ _ hsome hfind' h
        | exact invFull_write _ _ hsome h

theorem invFull_changeTaskStatus (s : Store) (taskId : String)
    (newStatus : TaskStatus) (h : InvFull s) :
    InvFull (changeTaskStatus s taskId newStatus).1 := by
  unfold changeTaskStatus
  cases hload : loadTask s taskId with
  | none =>
    simp only [hload]
    exact h
  | some task =>
    simp only [hload]
    obtain ⟨hsome', hfind'⟩ := loadTask_some hload
    have hsome : (fileLookup s.files taskId).isSome := by
      rw [hsome']
      rfl
    split
    · exact h
    · exact invFull_moveWrite _ _ hsome hfind' h

theorem fileLookup_deleteFilter (files : Files) (taskId id : String) :
    fileLookup
        (files.filter (fun kv => !(kv.1 == taskId || isUnder taskId kv.1)))
        id =
      if !(id == taskId || isUnder taskId id) then fileLookup files id
      else none :=
  fileLookup_filterKey (fun x => !(x == taskId || isUnder taskId x)) files id

theorem invFull_deleteTask (s : Store) (taskId : String) (h : InvFull s) :
    InvFull (deleteTask s taskId).1 := by
  obtain ⟨hex, hnd⟩ := h
  have hfilter : ∀ id,
      ((fileLookup
        (s.files.filter (fun kv => !(kv.1 == taskId || isUnder taskId kv.1)))
        id).isSome) → id ≠ taskId ∧ isUnder taskId id = false := by
    intro id hid
    rw [fileLookup_deleteFilter] at hid
    by_cases hq : (!(id == taskId || isUnder taskId id)) = true
    · have := hq
      simp only [Bool.not_eq_true', Bool.or_eq_false_iff, beq_eq_false_iff_ne]
        at this
      exact ⟨this.1, this.2⟩
    · rw [if_neg hq] at hid
      exact absurd hid (by simp)
  unfold deleteTask
  split
  · -- subtask branch
    cases hlk : fileLookup s.files taskId with
    | none =>
      simp only [hlk]
      exact ⟨hex, hnd⟩
    | some d0 =>
      simp only [hlk]
      cases hfs : findTaskStatus s.idx taskId with
      | none =>
        constructor
        · intro id hid
          have hsurv := hfilter id hid
          rw [fileLookup_deleteFilter] at hid
          have hq : (!(id == taskId || isUnder taskId id)) = true := by
            simp [hsurv.1, hsurv.2]
          rw [if_pos hq] at hid
          rw [statusCount_congr id (fun st => Iff.rfl)]
          exact hex id hid
        · exact hnd
      | some st0 =>
        constructor
        · intro id hid
          have hsurv := hfilter id hid
          rw [fileLookup_deleteFilter] at hid
          have hq : (!(id == taskId || isUnder taskId id)) = true := by
            simp [hsurv.1, hsurv.2]
          rw [if_pos hq] at hid
          rw [statusCount_congr id (fun st => ?_)]
          · exact hex id hid
          · show id ∈ readStatusFile
                ((removeTaskFromStatusIdx s.idx taskId st0).1 st) ↔ _
            rw [mem_removeIdx _ _ _ (hnd st0)]
            constructor
            · exact fun h' => h'.1
            · exact fun h' => ⟨h', fun hc => hsurv.1 hc.2⟩
        · exact fun st => nodup_removeIdx _ _ _ hnd st
  · -- top-level branch
    split
    · -- directory exists
      cases hfs : findTaskStatus s.idx taskId with
      | none =>
        have hnd1 : ∀ st, (readStatusFile (s.idx st)).Nodup := hnd
        constructor
        · intro id hid
          have hsurv := hfilter id hid
          rw [fileLookup_deleteFilter] at hid
          have hq : (!(id == taskId || isUnder taskId id)) = true := by
            simp [hsurv.1, hsurv.2]
          rw [if_pos hq] at hid
          rw [statusCount_congr id (fun st => ?_)]
          · exact hex id hid
          · rw [mem_removePairsIdx _ _ hnd1]
            constructor
            · exact fun h' => h'.1
            · intro h'
              refine ⟨h', ?_⟩
              intro p hp hcon
              obtain ⟨task, htask, rfl⟩ := List.mem_map.1 hp
              obtain ⟨c, hc⟩ := loadSubtasks_id htask
              have : isUnder taskId id = true := by
                rw [hcon.2, hc]
                exact isUnder_append _ _
              rw [this] at hsurv
              exact absurd hsurv.2 (by simp)
        · exact fun st => nodup_removePairsIdx _ _ hnd1 st
      | some st0 =>
        have hnd1 : ∀ st,
            (readStatusFile ((removeTaskFromStatusIdx s.idx taskId st0).1 st)).Nodup :=
          fun st => nodup_removeIdx _ _ _ hnd st
        constructor
        · intro id hid
          have hsurv := hfilter id hid
          rw [fileLookup_deleteFilter] at hid
          have hq : (!(id == taskId || isUnder taskId id)) = true := by
            simp [hsurv.1, hsurv.2]
          rw [if_pos hq] at hid
          rw [statusCount_congr id (fun st => ?_)]
          · exact hex id hid
          · rw [mem_removePairsIdx _ _ hnd1,
              mem_removeIdx _ _ _ (hnd st0)]
            constructor
            · exact fun h' => h'.1.1
            · intro h'
              refine ⟨⟨h', fun hc => hsurv.1 hc.2⟩, ?_⟩
              intro p hp hcon
              obtain ⟨task, htask, rfl⟩ := List.mem_map.1 hp
              obtain ⟨c, hc⟩ := loadSubtasks_id htask
              have : isUnder taskId id = true := by
                rw [hcon.2, hc]
                exact isUnder_append _ _
              rw [this] at hsurv
              exact absurd hsurv.2 (by simp)
        · exact fun st => nodup_removePairsIdx _ _ hnd1 st
    · exact ⟨hex, hnd⟩

theorem reachable_invFull {s : Store} (hs : Reachable s) : InvFull s := by
  induction hs with
  | init => exact invFull_empty
  | create newId options _ hclean hfresh ih =>
    exact invFull_createTask _ _ _ hclean hfresh ih
  | update taskId options _ ih => exact invFull_updateTask _ _ _ ih
  | changeStatus taskId st _ ih => exact invFull_changeTaskStatus _ _ _ ih
  | delete taskId _ ih => exact invFull_deleteTask _ _ ih
  | assign taskId a _ ih => exact invFull_updateTask _ _ _ ih
  | unassign taskId _ ih => exact invFull_updateTask _ _ _ ih

/-! ## Claim C4: status exclusivity on reachable stores -/

/-- C4: in every reachable quiescent store state, every task id that has a
task file appears in exactly one of the four status indexes; the
reachability induction shows each TaskManager operation (create, update,
changeStatus, delete, assign, unassign) preserves this. -/
theorem reachable_statusExclusive {s : Store} (hs : Reachable s) :
    ∀ taskId, (fileLookup s.files taskId).isSome → statusCount s taskId = 1 :=
  (reachable_invFull hs).1

theorem reachable_statusExclusive_witness :
    statusCount (createTask emptyStore "a" ⟨"T", "D", none, none, none⟩).1
      "a" = 1 :=
  reachable_statusExclusive
    (Reachable.create "a" ⟨"T", "D", none, none, none⟩ Reachable.init
      ⟨by decide, by decide⟩ ⟨rfl, fun st => by cases st <;> decide⟩)
    "a" (by decide)

/-! ## Claim C10: createTask silently discards dependsOn (and, for
subtasks, the assignee) -/

/-- C10: for every createTask call the created task's frontmatter (both
returned and written to the task file) has no dependsOn; when a non-empty
parentTaskId is given the assignee option is discarded as well — the
subtask frontmatter holds only the title. -/
theorem createTask_discards_options (s : Store) (newId : String)
    (options : CreateTaskOptions) :
    (createTask s newId options).2.frontmatter.dependsOn = none ∧
    fileLookup (createTask s newId options).1.files
        (createTask s newId options).2.id =
      some ⟨(createTask s newId options).2.frontmatter, options.description⟩ ∧
    (∀ parent, options.parentTaskId = some parent → parent ≠ "" →
      (createTask s newId options).2.frontmatter =
        ⟨options.title, none, none⟩) := by
  unfold createTask
  cases hp : options.parentTaskId with
  | none =>
    dsimp only
    refine ⟨rfl, ?_, ?_⟩
    · rw [fileLookup_putFile, if_pos rfl]
    · intro parent hpar
      exact absurd hpar (by simp)
  | some parent =>
    by_cases hpe : parent = ""
    · subst hpe
      dsimp only
      rw [if_pos rfl]
      dsimp only
      refine ⟨rfl, ?_, ?_⟩
      · rw [fileLookup_putFile, if_pos rfl]
      · intro p hpar hne
        cases hpar
        exact absurd rfl hne
    · dsimp only
      rw [if_neg hpe]
      dsimp only
      refine ⟨rfl, ?_, ?_⟩
      · rw [fileLookup_putFile, if_pos rfl]
      · intro p hpar hne
        cases hpar
        rfl

theorem createTask_discards_options_witness :
    (createTask emptyStore "n"
      ⟨"T", "D", some "j", some "p", some ["x"]⟩).2.frontmatter =
      ⟨"T", none, none⟩ :=
  (createTask_discards_options emptyStore "n"
    ⟨"T", "D", some "j", some "p", some ["x"]⟩).2.2 "p" rfl (by decide)

/-! ## Claim C5: createTask id shape and initial status -/

/-- C5: with a (truthy) parentTaskId the created task's id is
`parentTaskId ++ "/" ++ newId` and its status is open regardless of the
assignee; without one (absent or falsy), the status is in-progress exactly
when a truthy assignee is provided, and a fresh clean id is indexed under
exactly that initial status. -/
theorem createTask_initial_status (s : Store) (newId : String)
    (options : CreateTaskOptions) :
    (∀ parent, options.parentTaskId = some parent → parent ≠ "" →
      (createTask s newId options).2.id = parent ++ "/" ++ newId ∧
      (createTask s newId options).2.status = .open_) ∧
    (truthyStr options.parentTaskId = false →
      (createTask s newId options).2.id = newId ∧
      (createTask s newId options).2.status =
        (if truthyStr options.assignee then TaskStatus.inProgress
          else .open_) ∧
      (cleanStr newId → FreshId s newId → ∀ st,
        (newId ∈ readStatusFile ((createTask s newId options).1.idx st) ↔
          st = (if truthyStr options.assignee then TaskStatus.inProgress
            else .open_)))) := by
  unfold createTask
  cases hp : options.parentTaskId with
  | none =>
    dsimp only
    constructor
    · intro parent hpar
      exact absurd hpar (by simp)
    · intro _
      refine ⟨rfl, rfl, ?_⟩
      intro hclean hfresh st
      show newId ∈ readStatusFile ((addTaskToStatusIdx s.idx newId
        (if truthyStr options.assignee = true then TaskStatus.inProgress
          else .open_)).1 st) ↔ _
      rw [mem_addIdx _ _ _ hclean]
      constructor
      · rintro (h | ⟨h1, -⟩)
        · exact absurd h (hfresh.2 st)
        · exact h1
      · exact fun h => Or.inr ⟨h, rfl⟩
  | some parent =>
    by_cases hpe : parent = ""
    · subst hpe
      dsimp only
      rw [if_pos rfl]
      dsimp only
      constructor
      · intro p hpar hne
        cases hpar
        exact absurd rfl hne
      · intro _
        refine ⟨rfl, rfl, ?_⟩
        intro hclean hfresh st
        show newId ∈ readStatusFile ((addTaskToStatusIdx s.idx newId
          (if truthyStr options.assignee = true then TaskStatus.inProgress
            else .open_)).1 st) ↔ _
        rw [mem_addIdx _ _ _ hclean]
        constructor
        · rintro (h | ⟨h1, -⟩)
          · exact absurd h (hfresh.2 st)
          · exact h1
        · exact fun h => Or.inr ⟨h, rfl⟩
    · dsimp only
      rw [if_neg hpe]
      dsimp only
      constructor
      · intro p hpar hne
        cases hpar
        exact ⟨rfl, rfl⟩
      · intro htr
        rw [show truthyStr (some parent) = (parent != "") from rfl] at htr
        rw [bne_eq_false_iff_eq] at htr
        exact absurd htr hpe

theorem createTask_initial_status_witness :
    ((createTask emptyStore "n" ⟨"T", "D", some "j", some "p", none⟩).2.id =
        "p" ++ "/" ++ "n" ∧
      (createTask emptyStore "n"
        ⟨"T", "D", some "j", some "p", none⟩).2.status = .open_) ∧
    ((createTask emptyStore "n" ⟨"T", "D", some "j", none, none⟩).2.id = "n" ∧
      (createTask emptyStore "n" ⟨"T", "D", some "j", none, none⟩).2.status =
        .inProgress ∧
      "n" ∈ readStatusFile
        ((createTask emptyStore "n"
          ⟨"T", "D", some "j", none, none⟩).1.idx .inProgress) ∧
      "n" ∉ readStatusFile
        ((createTask emptyStore "n"
          ⟨"T", "D", some "j", none, none⟩).1.idx .open_)) := by
  have h2 := (createTask_initial_status emptyStore "n"
    ⟨"T", "D", some "j", none, none⟩).2 (by decide)
  have hidx := h2.2.2 ⟨by decide, by decide⟩
    ⟨rfl, fun st => by cases st <;> decide⟩
  refine ⟨(createTask_initial_status emptyStore "n"
    ⟨"T", "D", some "j", some "p", none⟩).1 "p" rfl (by decide),
    h2.1, h2.2.1, (hidx .inProgress).2 rfl, ?_⟩
  intro hmem
  have := (hidx .open_).1 hmem
  exact absurd this (by decide)

/-! ## Claim C3: updateTask with only title/description -/

/-- C3 as stated is false: on an in-progress task with an assignee, an
updateTask call whose options carry only a title reverts the status to
open and clears the assignee (an absent assignee field is
indistinguishable from an explicit unassign). -/
theorem updateTask_title_only_counterexample :
    loadTask inProgressStore "t" =
      some ⟨"t", ⟨"Title", some "john.doe", none⟩, "Body", .inProgress⟩ ∧
    (updateTask inProgressStore "t" { title := some "New" }).2 =
      some ⟨"t", ⟨"New", none, none⟩, "Body", .open_⟩ := by
  decide

/-- C3 (amended): for a top-level task, updateTask options without an
assignee field apply the provided title/description changes; when the
current status is open or draft the assignee and status are indeed left
unchanged, but when it is in-progress or closed the absent assignee acts
as an unassign — the task reverts to open and its assignee is cleared. -/
theorem updateTask_absent_assignee (s : Store) (taskId : String) (task : Task)
    (options : UpdateTaskOptions) (hload : loadTask s taskId = some task)
    (htop : hasSlash taskId = false) (hassignee : options.assignee = none) :
    ((task.status = .inProgress ∨ task.status = .closed) →
      (updateTask s taskId options).2 =
        some ⟨taskId,
          ⟨options.title.getD task.frontmatter.title, none,
            task.frontmatter.dependsOn⟩,
          options.description.getD task.description, .open_⟩) ∧
    ((task.status = .open_ ∨ task.status = .draft) →
      (updateTask s taskId options).2 =
        some ⟨taskId,
          ⟨options.title.getD task.frontmatter.title,
            task.frontmatter.assignee, task.frontmatter.dependsOn⟩,
          options.description.getD task.description, task.status⟩) := by
  have hid : task.id = taskId := loadTask_id hload
  constructor
  · intro hst
    rcases hst with h | h <;>
      (unfold updateTask
       simp only [hload]
       cases ht : options.title <;> cases hd : options.description <;>
         simp [applyUpdates, hassignee, htop, h, hid, truthyStr, ht, hd])
  · intro hst
    rcases hst with h | h <;>
      (unfold updateTask
       simp only [hload]
       cases ht : options.title <;> cases hd : options.description <;>
         simp [applyUpdates, hassignee, htop, h, hid, truthyStr, ht, hd])

theorem updateTask_absent_assignee_witness :
    (updateTask inProgressStore "t"
      { title := some "New", description := some "Longer" }).2 =
      some ⟨"t", ⟨"New", none, none⟩, "Longer", .open_⟩ ∧
    (updateTask openStore "t" { title := some "New" }).2 =
      some ⟨"t", ⟨"New", none, none⟩, "Body", .open_⟩ :=
  ⟨(updateTask_absent_assignee inProgressStore "t"
      ⟨"t", ⟨"Title", some "john.doe", none⟩, "Body", .inProgress⟩
      { title := some "New", description := some "Longer" }
      (by decide) (by decide) rfl).1 (Or.inl rfl),
    (updateTask_absent_assignee openStore "t"
      ⟨"t", ⟨"Title", none, none⟩, "Body", .open_⟩
      { title := some "New" } (by decide) (by decide) rfl).2 (Or.inl rfl)⟩

/-! ## Claim C6: assign / unassign coupling -/

theorem loadTask_moveWrite (s : Store) (taskId : String)
    (cur new : TaskStatus) (d : TaskFileData)
    (hnd : ∀ st, (readStatusFile (s.idx st)).Nodup)
    (hclean : cleanStr taskId)
    (huniqcur : ∀ st', taskId ∈ readStatusFile (s.idx st') → st' = cur) :
    loadTask ⟨putFile s.files taskId d,
      moveTaskStatusIdx s.idx taskId (some cur) new⟩ taskId =
      some ⟨taskId, d.frontmatter, d.description, new⟩ := by
  unfold loadTask
  rw [show (⟨putFile s.files taskId d,
      moveTaskStatusIdx s.idx taskId (some cur) new⟩ : Store).files =
      putFile s.files taskId d from rfl,
    fileLookup_putFile, if_pos rfl]
  have hmem : taskId ∈ readStatusFile
      ((moveTaskStatusIdx s.idx taskId (some cur) new) new) := by
    rw [mem_moveIdx _ _ _ _ hclean hnd]
    exact Or.inr ⟨rfl, rfl⟩
  have huniq' : ∀ st', taskId ∈ readStatusFile
      ((moveTaskStatusIdx s.idx taskId (some cur) new) st') → st' = new := by
    intro st' h'
    rw [mem_moveIdx _ _ _ _ hclean hnd] at h'
    rcases h' with ⟨h0, hne⟩ | ⟨h1, -⟩
    · exact absurd ⟨huniqcur st' h0, rfl⟩ hne
    · exact h1
  rw [show (⟨putFile s.files taskId d,
      moveTaskStatusIdx s.idx taskId (some cur) new⟩ : Store).idx =
      moveTaskStatusIdx s.idx taskId (some cur) new from rfl,
    findTaskStatus_unique hmem huniq']

/-- C6 as stated is false at the empty assignee string: assigning the
empty string records it in the frontmatter but leaves the status open
(JavaScript truthiness), instead of transitioning to in-progress. -/
theorem assignTask_empty_counterexample :
    loadTask openStore "t" =
      some ⟨"t", ⟨"Title", none, none⟩, "Body", .open_⟩ ∧
    (assignTask openStore "t" "").2 =
      some ⟨"t", ⟨"Title", some "", none⟩, "Body", .open_⟩ := by
  decide

/-- C6 (amended): for every top-level open unassigned task and non-empty
assignee a, assignTask yields the task in-progress with assignee a, and a
subsequent unassignTask on the resulting store returns it to open with no
assignee. -/
theorem assign_unassign_roundtrip (s : Store) (taskId a : String)
    (task : Task) (hinv : InvFull s) (hload : loadTask s taskId = some task)
    (htop : hasSlash taskId = false) (hst : task.status = .open_)
    (ha : a ≠ "") :
    (assignTask s taskId a).2 =
      some ⟨taskId,
        ⟨task.frontmatter.title, some a, task.frontmatter.dependsOn⟩,
        task.description, .inProgress⟩ ∧
    (unassignTask (assignTask s taskId a).1 taskId).2 =
      some ⟨taskId,
        ⟨task.frontmatter.title, none, task.frontmatter.dependsOn⟩,
        task.description, .open_⟩ := by
  have hid : task.id = taskId := loadTask_id hload
  obtain ⟨hsome', hfind'⟩ := loadTask_some hload
  have hfindo : findTaskStatus s.idx taskId = some .open_ := by
    rw [hfind', hst]
  have hclean : cleanStr taskId :=
    readStatusFile_clean (findTaskStatus_mem hfindo)
  have huniqcur : ∀ st', taskId ∈ readStatusFile (s.idx st') →
      st' = .open_ := by
    have h1 := hinv.1 taskId (by rw [hsome']; rfl)
    obtain ⟨st1, hmem1, huniq1⟩ := (statusCount_eq_one_iff s taskId).1 h1
    have he : st1 = .open_ := (huniq1 .open_ (findTaskStatus_mem hfindo)).symm
    subst he
    exact huniq1
  have ha' : (a != "") = true := by simpa using ha
  have hastore : assignTask s taskId a =
      (⟨putFile s.files taskId
          ⟨⟨task.frontmatter.title, some a, task.frontmatter.dependsOn⟩,
            task.description⟩,
        moveTaskStatusIdx s.idx taskId (some .open_) .inProgress⟩,
        some ⟨taskId,
          ⟨task.frontmatter.title, some a, task.frontmatter.dependsOn⟩,
          task.description, .inProgress⟩) := by
    unfold assignTask updateTask
    simp only [hload]
    simp [applyUpdates, truthyStr, ha', hst, htop, hid]
  constructor
  · rw [hastore]
  · rw [hastore]
    unfold unassignTask updateTask
    rw [loadTask_moveWrite s taskId .open_ .inProgress _ hinv.2 hclean
      huniqcur]
    simp [applyUpdates, truthyStr, htop]

theorem invFull_openStore : InvFull openStore := by
  constructor
  · intro id hid
    by_cases h1 : id = "t"
    · subst h1
      decide
    · exfalso
      have hnone : fileLookup openStore.files id = none := by
        rw [show openStore.files = [("t", exData)] from rfl,
          fileLookup_cons, if_neg (fun he => h1 he.symm)]
        rfl
      rw [hnone] at hid
      exact absurd hid (by simp)
  · intro st
    cases st <;> decide

theorem assign_unassign_roundtrip_witness :
    (assignTask openStore "t" "john.doe").2 =
      some ⟨"t", ⟨"Title", some "john.doe", none⟩, "Body", .inProgress⟩ ∧
    (unassignTask (assignTask openStore "t" "john.doe").1 "t").2 =
      some ⟨"t", ⟨"Title", none, none⟩, "Body", .open_⟩ :=
  assign_unassign_roundtrip openStore "t" "john.doe"
    ⟨"t", ⟨"Title", none, none⟩, "Body", .open_⟩ invFull_openStore
    (by decide) (by decide) rfl (by decide)

/-! ## Claim C2: deleteTask on a top-level task -/

/-- C2 as stated is false: deleting top-level task `a` in a store with
child `a/b` and grandchild `a/b/c` returns true and removes the entries
of `a` and `a/b`, but the grandchild entry `a/b/c` — an id prefixed by
`a ++ "/"` — survives in the open status index. -/
theorem deleteTask_grandchild_counterexample :
    (deleteTask cascadeStore "a").2 = true ∧
    "a/b/c" ∈ (deleteTask cascadeStore "a").1.idx TaskStatus.open_ ∧
    isUnder "a" "a/b/c" = true ∧
    "a" ∉ (deleteTask cascadeStore "a").1.idx TaskStatus.open_ ∧
    "a/b" ∉ (deleteTask cascadeStore "a").1.idx TaskStatus.open_ := by
  decide

theorem append_seg_ne (t c : String) : t ++ "/" ++ c ≠ t := by
  intro h
  have hlen := congrArg (fun x => x.data.length) h
  simp only [String.data_append, List.length_append] at hlen
  rw [show (("/" : String).data.length = 1) from rfl] at hlen
  omega

theorem loadTask_frame_removeIdx (s : Store) (taskId : String)
    (st0 : TaskStatus) (y : String)
    (hnd : ∀ st, (readStatusFile (s.idx st)).Nodup) (hne : y ≠ taskId) :
    loadTask ⟨s.files, (removeTaskFromStatusIdx s.idx taskId st0).1⟩ y =
      loadTask s y := by
  unfold loadTask
  have hfind : findTaskStatus ((removeTaskFromStatusIdx s.idx taskId st0).1) y =
      findTaskStatus s.idx y := by
    unfold findTaskStatus
    have heq : (fun st => decide (y ∈ readStatusFile
        ((removeTaskFromStatusIdx s.idx taskId st0).1 st))) =
        (fun st => decide (y ∈ readStatusFile (s.idx st))) := by
      funext st
      refine decide_eq_decide.2 ?_
      rw [mem_removeIdx _ _ _ (hnd st0)]
      exact ⟨fun h => h.1, fun h => ⟨h, fun hc => hne hc.2⟩⟩
    rw [heq]
  rw [show (⟨s.files, (removeTaskFromStatusIdx s.idx taskId st0).1⟩ :
      Store).files = s.files from rfl, hfind]

theorem loadSubtasks_frame (s : Store) (taskId : String) (st0 : TaskStatus)
    (hnd : ∀ st, (readStatusFile (s.idx st)).Nodup) :
    loadSubtasks ⟨s.files, (removeTaskFromStatusIdx s.idx taskId st0).1⟩
      taskId = loadSubtasks s taskId := by
  unfold loadSubtasks
  rw [show (⟨s.files, (removeTaskFromStatusIdx s.idx taskId st0).1⟩ :
      Store).files = s.files from rfl]
  have heq : (fun c => loadTask
      ⟨s.files, (removeTaskFromStatusIdx s.idx taskId st0).1⟩
      (taskId ++ "/" ++ c)) =
      (fun c => loadTask s (taskId ++ "/" ++ c)) :=
    funext fun c =>
      loadTask_frame_removeIdx s taskId st0 _ hnd (append_seg_ne _ _)
  rw [heq]

theorem dirExistsB_of_file {files : Files} {taskId : String}
    (h : (fileLookup files taskId).isSome) :
    dirExistsB files taskId = true := by
  unfold fileLookup at h
  cases hf : files.find? (fun kv => kv.1 == taskId) with
  | none =>
    rw [hf] at h
    exact absurd h (by simp)
  | some kv =>
    have hmem := List.mem_of_find?_eq_some hf
    have hpred := List.find?_some hf
    unfold dirExistsB
    rw [List.any_eq_true]
    exact ⟨kv, hmem, by
      rw [Bool.or_eq_true]
      exact Or.inl hpred⟩

theorem mem_loadSubtasks_iff {s : Store} {taskId : String} {ty : Task} :
    ty ∈ loadSubtasks s taskId ↔
      ∃ c ∈ childSegs s.files taskId,
        loadTask s (taskId ++ "/" ++ c) = some ty := by
  unfold loadSubtasks
  rw [List.mem_filterMap]

theorem loadedChild_of_mem {s : Store} {taskId : String} {ty : Task}
    (h : ty ∈ loadSubtasks s taskId) : LoadedChild s taskId ty.id := by
  obtain ⟨c, hcseg, hty⟩ := mem_loadSubtasks_iff.1 h
  have hid := loadTask_id hty
  exact ⟨c, hcseg, hid, by
    rw [hid, hty]
    rfl⟩

/-- C2 (amended): deleting an existing top-level task returns true,
removes every file in the task's directory tree and no other file, and
removes exactly the index entries of the task itself and of its loaded
direct children — index entries of grandchildren and deeper descendants
are not removed even though their files are gone.  With no task
directory, deleteTask returns false and changes nothing. -/
theorem deleteTask_top_level (s : Store) (taskId : String)
    (hinv : InvFull s) (htop : hasSlash taskId = false) :
    (dirExistsB s.files taskId = false → deleteTask s taskId = (s, false)) ∧
    ((fileLookup s.files taskId).isSome →
      (deleteTask s taskId).2 = true ∧
      fileLookup (deleteTask s taskId).1.files taskId = none ∧
      (∀ y, isUnder taskId y = true →
        fileLookup (deleteTask s taskId).1.files y = none) ∧
      (∀ y, y ≠ taskId → isUnder taskId y = false →
        fileLookup (deleteTask s taskId).1.files y = fileLookup s.files y) ∧
      (∀ st y, y ∈ readStatusFile ((deleteTask s taskId).1.idx st) ↔
        (y ∈ readStatusFile (s.idx st) ∧ y ≠ taskId ∧
          ¬ LoadedChild s taskId y))) := by
  obtain ⟨hex, hnd⟩ := hinv
  constructor
  · intro hdir
    unfold deleteTask
    rw [htop]
    simp only [Bool.false_eq_true, if_false, hdir]
  · intro hfile
    have hdir := dirExistsB_of_file hfile
    have huniqT : ∀ st', taskId ∈ readStatusFile (s.idx st') →
        ∀ st'', taskId ∈ readStatusFile (s.idx st'') → st' = st'' := by
      intro st' h' st'' h''
      obtain ⟨st1, -, huniq1⟩ :=
        (statusCount_eq_one_iff s taskId).1 (hex taskId hfile)
      rw [huniq1 st' h', huniq1 st'' h'']
    unfold deleteTask
    rw [htop]
    simp only [Bool.false_eq_true, if_false, hdir, if_true, ite_true]
    cases hfs : findTaskStatus s.idx taskId with
    | none =>
      have hnotin : ∀ st, taskId ∉ readStatusFile (s.idx st) :=
        findTaskStatus_eq_none.1 hfs
      dsimp only
      refine ⟨by trivial, ?_, ?_, ?_, ?_⟩
      · rw [fileLookup_deleteFilter]
        simp
      · intro y hy
        rw [fileLookup_deleteFilter]
        simp [hy]
      · intro y hy1 hy2
        rw [fileLookup_deleteFilter]
        simp [hy1, hy2, beq_eq_false_iff_ne]
      · intro st y
        rw [show (⟨s.files, s.idx⟩ : Store) = s from rfl,
          mem_removePairsIdx _ _ hnd]
        constructor
        · rintro ⟨hy, hpairs⟩
          refine ⟨hy, ?_, ?_⟩
          · rintro rfl
            exact hnotin st hy
          · rintro ⟨c, hcseg, rfl, hsome⟩
            cases hty : loadTask s (taskId ++ "/" ++ c) with
            | none =>
              rw [hty] at hsome
              exact absurd hsome (by simp)
            | some ty =>
              have htymem : ty ∈ loadSubtasks s taskId :=
                mem_loadSubtasks_iff.2 ⟨c, hcseg, hty⟩
              have hidty : ty.id = taskId ++ "/" ++ c := loadTask_id hty
              obtain ⟨hty1, hty2⟩ := loadTask_some hty
              have hfileTy :
                  (fileLookup s.files (taskId ++ "/" ++ c)).isSome := by
                rw [hty1]
                rfl
              obtain ⟨st1, -, huniq1⟩ :=
                (statusCount_eq_one_iff s (taskId ++ "/" ++ c)).1
                  (hex _ hfileTy)
              have hst1 : st = ty.status := by
                rw [huniq1 st hy, huniq1 ty.status (findTaskStatus_mem hty2)]
              exact hpairs (ty.id, ty.status)
                (List.mem_map.2 ⟨ty, htymem, rfl⟩) ⟨hst1, hidty.symm⟩
        · rintro ⟨hy, hne, hnl⟩
          refine ⟨hy, ?_⟩
          intro p hp hcon
          obtain ⟨ty, htymem, rfl⟩ := List.mem_map.1 hp
          exact hnl (hcon.2 ▸ loadedChild_of_mem htymem)
    | some st0 =>
      have hmem0 : taskId ∈ readStatusFile (s.idx st0) :=
        findTaskStatus_mem hfs
      have huniq0 : ∀ st', taskId ∈ readStatusFile (s.idx st') → st' = st0 :=
        fun st' h' => huniqT st' h' st0 hmem0
      have hnd1 : ∀ st, (readStatusFile
          ((removeTaskFromStatusIdx s.idx taskId st0).1 st)).Nodup :=
        fun st => nodup_removeIdx _ _ _ hnd st
      dsimp only
      rw [loadSubtasks_frame s taskId st0 hnd]
      refine ⟨by trivial, ?_, ?_, ?_, ?_⟩
      · rw [fileLookup_deleteFilter]
        simp
      · intro y hy
        rw [fileLookup_deleteFilter]
        simp [hy]
      · intro y hy1 hy2
        rw [fileLookup_deleteFilter]
        simp [hy1, hy2, beq_eq_false_iff_ne]
      · intro st y
        rw [mem_removePairsIdx _ _ hnd1, mem_removeIdx _ _ _ (hnd st0)]
        constructor
        · rintro ⟨⟨hy, hne0⟩, hpairs⟩
          refine ⟨hy, ?_, ?_⟩
          · rintro rfl
            exact hne0 ⟨huniq0 st hy, rfl⟩
          · rintro ⟨c, hcseg, rfl, hsome⟩
            cases hty : loadTask s (taskId ++ "/" ++ c) with
            | none =>
              rw [hty] at hsome
              exact absurd hsome (by simp)
            | some ty =>
              have htymem : ty ∈ loadSubtasks s taskId :=
                mem_loadSubtasks_iff.2 ⟨c, hcseg, hty⟩
              have hidty : ty.id = taskId ++ "/" ++ c := loadTask_id hty
              obtain ⟨hty1, hty2⟩ := loadTask_some hty
              have hfileTy :
                  (fileLookup s.files (taskId ++ "/" ++ c)).isSome := by
                rw [hty1]
                rfl
              obtain ⟨st1, -, huniq1⟩ :=
                (statusCount_eq_one_iff s (taskId ++ "/" ++ c)).1
                  (hex _ hfileTy)
              have hst1 : st = ty.status := by
                rw [huniq1 st hy, huniq1 ty.status (findTaskStatus_mem hty2)]
              exact hpairs (ty.id, ty.status)
                (List.mem_map.2 ⟨ty, htymem, rfl⟩) ⟨hst1, hidty.symm⟩
        · rintro ⟨hy, hne, hnl⟩
          refine ⟨⟨hy, fun hc => hne hc.2⟩, ?_⟩
          intro p hp hcon
          obtain ⟨ty, htymem, rfl⟩ := List.mem_map.1 hp
          exact hnl (hcon.2 ▸ loadedChild_of_mem htymem)

theorem invFull_cascadeStore : InvFull cascadeStore := by
  constructor
  · intro id hid
    by_cases h1 : id = "a"
    · subst h1
      decide
    · by_cases h2 : id = "a/b"
      · subst h2
        decide
      · by_cases h3 : id = "a/b/c"
        · subst h3
          decide
        · exfalso
          have hnone : fileLookup cascadeStore.files id = none := by
            rw [show cascadeStore.files =
                [("a", exData), ("a/b", exData), ("a/b/c", exData)] from rfl,
              fileLookup_cons, if_neg (fun he => h1 he.symm),
              fileLookup_cons, if_neg (fun he => h2 he.symm),
              fileLookup_cons, if_neg (fun he => h3 he.symm)]
            rfl
          rw [hnone] at hid
          exact absurd hid (by simp)
  · intro st
    cases st <;> decide

theorem deleteTask_top_level_witness :
    (deleteTask cascadeStore "a").2 = true ∧
    fileLookup (deleteTask cascadeStore "a").1.files "a/b/c" = none ∧
    ("a/b/c" ∈ readStatusFile ((deleteTask cascadeStore "a").1.idx .open_) ↔
      ("a/b/c" ∈ readStatusFile (cascadeStore.idx .open_) ∧ "a/b/c" ≠ "a" ∧
        ¬ LoadedChild cascadeStore "a" "a/b/c")) := by
  have h := (deleteTask_top_level cascadeStore "a" invFull_cascadeStore
    (by decide)).2 (by decide)
  exact ⟨h.1, h.2.2.1 "a/b/c" (by decide), h.2.2.2.2 .open_ "a/b/c"⟩

/-! ## Claim C7: the schema version gate -/

theorem mem_migrationVersions_filter (avail : Int → Bool) (v0 v : Int) :
    v ∈ (migrationVersions v0).filter avail ↔
      (v0 < v ∧ v ≤ CURRENT_SCHEMA_VERSION ∧ avail v = true) := by
  have hCdef : CURRENT_SCHEMA_VERSION = (3 : Int) := rfl
  simp only [migrationVersions, List.mem_filter, List.mem_map,
    List.mem_range]
  constructor
  · rintro ⟨⟨i, hi, rfl⟩, hav⟩
    refine ⟨by omega, by omega, hav⟩
  · rintro ⟨h1, h2, hav⟩
    exact ⟨⟨(v - v0 - 1).toNat, by omega, by omega⟩, hav⟩

theorem sorted_migrationVersions_filter (avail : Int → Bool) (v0 : Int) :
    ((migrationVersions v0).filter avail).Pairwise (· < ·) := by
  refine List.Pairwise.filter _ ?_
  unfold migrationVersions
  rw [List.pairwise_map]
  refine (List.pairwise_lt_range _).imp (fun {a b} h => ?_)
  show v0 + 1 + (a : Int) < v0 + 1 + (b : Int)
  omega

/-- C7: ensureSchemaVersion by case on the persisted version v against
the current version 3: v = 0 initializes directly to the current version
with no migration step run; 0 < v < 3 runs exactly the available
migration steps among v+1..3, in ascending order, and persists "3";
v = 3 changes nothing; v > 3 fails with UnsupportedSchemaError and runs
no migration. -/
theorem ensureSchemaVersion_cases (avail : Int → Bool) (f : VersionFile) :
    (readSchemaVersion f = 0 →
      ensureSchemaVersion avail f = .ok (.content "3", [])) ∧
    (0 < readSchemaVersion f →
      readSchemaVersion f < CURRENT_SCHEMA_VERSION →
      ensureSchemaVersion avail f =
        .ok (.content "3",
          (migrationVersions (readSchemaVersion f)).filter avail) ∧
      ((migrationVersions (readSchemaVersion f)).filter avail).Pairwise
        (· < ·) ∧
      (∀ v, v ∈ (migrationVersions (readSchemaVersion f)).filter avail ↔
        (readSchemaVersion f < v ∧ v ≤ CURRENT_SCHEMA_VERSION ∧
          avail v = true))) ∧
    (readSchemaVersion f = CURRENT_SCHEMA_VERSION →
      ensureSchemaVersion avail f = .ok (f, [])) ∧
    (readSchemaVersion f > CURRENT_SCHEMA_VERSION →
      ensureSchemaVersion avail f = .error .mk) := by
  have hCdef : CURRENT_SCHEMA_VERSION = (3 : Int) := rfl
  refine ⟨?_, ?_, ?_, ?_⟩
  · intro h0
    unfold ensureSchemaVersion
    rw [h0, if_pos rfl]
    rfl
  · intro h1 h2
    refine ⟨?_, sorted_migrationVersions_filter avail _,
      fun v => mem_migrationVersions_filter avail _ v⟩
    unfold ensureSchemaVersion
    rw [if_neg (by omega), if_pos h2]
    rfl
  · intro hC
    unfold ensureSchemaVersion
    rw [if_neg (by omega), if_neg (by omega), if_neg (by omega)]
  · intro hgt
    unfold ensureSchemaVersion
    rw [if_neg (by omega), if_neg (by omega), if_pos hgt]

theorem ensureSchemaVersion_cases_witness :
    ensureSchemaVersion (fun i => i == 2) .absent = .ok (.content "3", []) ∧
    ensureSchemaVersion (fun i => i == 2) (.content "1") =
      .ok (.content "3", [2]) ∧
    ensureSchemaVersion (fun i => i == 2) (.content "3") =
      .ok (.content "3", []) ∧
    ensureSchemaVersion (fun i => i == 2) (.content "4") = .error .mk :=
  ⟨(ensureSchemaVersion_cases (fun i => i == 2) .absent).1 rfl,
    ((ensureSchemaVersion_cases (fun i => i == 2) (.content "1")).2.1
      (by decide) (by decide)).1.trans (by decide),
    (ensureSchemaVersion_cases (fun i => i == 2) (.content "3")).2.2.1
      (by decide),
    (ensureSchemaVersion_cases (fun i => i == 2) (.content "4")).2.2.2
      (by decide)⟩

/-! ## Claim C9: a corrupt version marker reads as zero and is silently
re-initialized -/

/-- C9: when the version file exists but its trimmed text has no leading
integer (JavaScript parseInt returns NaN), readSchemaVersion yields 0 and
ensureSchemaVersion treats the store as never initialized: it overwrites
the version file with the current version and runs no migration step,
reporting no error. -/
theorem corruptVersion_reinitialized (avail : Int → Bool) (text : String)
    (h : parseIntJS (trimStr text) = none) :
    readSchemaVersion (.content text) = 0 ∧
    ensureSchemaVersion avail (.content text) = .ok (.content "3", []) := by
  have h0 : readSchemaVersion (.content text) = 0 := by
    simp only [readSchemaVersion, h]
  refine ⟨h0, ?_⟩
  unfold ensureSchemaVersion
  rw [h0, if_pos rfl]
  rfl

theorem corruptVersion_reinitialized_witness :
    readSchemaVersion (.content "garbage") = 0 ∧
    ensureSchemaVersion (fun i => i == 2) (.content "garbage") =
      .ok (.content "3", []) :=
  corruptVersion_reinitialized (fun i => i == 2) "garbage" (by decide)

/-! ## Claim C1: dependency-add rejects exactly the cycles

The executable walk `canReach` is proved equivalent to the existence of a
dependency chain: soundness by tracing the frontier construction,
completeness by erasing loops from a chain and bounding the loop-free
chain by the number of tasks in the store. -/

theorem depsOf_cons (k : String) (ds : List String) (rest : DepGraph)
    (x : String) :
    depsOf ((k, ds) :: rest) x = if k = x then ds else depsOf rest x := rfl

theorem depsOf_mem_key {g : DepGraph} {x y : String} (h : y ∈ depsOf g x) :
    x ∈ keysOf g := by
  induction g with
  | nil => exact absurd h (by simp [depsOf])
  | cons kv rest ih =>
    obtain ⟨k, ds⟩ := kv
    by_cases hk : k = x
    · subst hk
      exact List.mem_cons_self _ _
    · rw [depsOf_cons, if_neg hk] at h
      exact List.mem_cons_of_mem _ (ih h)

theorem chainTo_snoc {g : DepGraph} {a b c : String} {l : List String}
    (h : ChainTo g a l b) (hc : c ∈ depsOf g b) :
    ChainTo g a (l ++ [c]) c := by
  induction h with
  | nil x => exact ChainTo.cons hc (ChainTo.nil c)
  | cons hstep _ ih => exact ChainTo.cons hstep (ih hc)

theorem reachList_sound {g : DepGraph} {a : String} :
    ∀ {n : Nat} {b : String}, b ∈ reachList g a n → ∃ l, ChainTo g a l b := by
  intro n
  induction n with
  | zero =>
    intro b hb
    rw [show reachList g a 0 = [a] from rfl, List.mem_singleton] at hb
    subst hb
    exact ⟨[], ChainTo.nil b⟩
  | succ n ih =>
    intro b hb
    rw [show reachList g a (n + 1) = reachStep g (reachList g a n) from rfl]
      at hb
    rcases List.mem_append.1 hb with hb | hb
    · exact ih hb
    · obtain ⟨y, hy, hby⟩ := List.mem_flatMap.1 hb
      obtain ⟨l, hch⟩ := ih hy
      exact ⟨l ++ [b], chainTo_snoc hch hby⟩

theorem reachList_succ_mono {g : DepGraph} {a : String} {n : Nat}
    {x : String} (hx : x ∈ reachList g a n) : x ∈ reachList g a (n + 1) := by
  rw [show reachList g a (n + 1) = reachStep g (reachList g a n) from rfl]
  exact List.mem_append_left _ hx

theorem reachList_le {g : DepGraph} {a : String} {m n : Nat} (h : m ≤ n) :
    ∀ {x : String}, x ∈ reachList g a m → x ∈ reachList g a n := by
  induction h with
  | refl => exact fun hx => hx
  | step _ ih => exact fun hx => reachList_succ_mono (ih hx)

theorem reachList_complete {g : DepGraph} {a : String} :
    ∀ {y b : String} {l : List String}, ChainTo g y l b →
      ∀ {n : Nat}, y ∈ reachList g a n → b ∈ reachList g a (n + l.length) := by
  intro y b l hch
  induction hch with
  | nil x =>
    intro n hy
    simpa using hy
  | @cons x y' b' l' hstep hch' ih =>
    intro n hy
    have hy' : y' ∈ reachList g a (n + 1) := by
      rw [show reachList g a (n + 1) = reachStep g (reachList g a n) from rfl]
      exact List.mem_append_right _ (List.mem_flatMap.2 ⟨x, hy, hstep⟩)
    have harith : n + (y' :: l').length = n + 1 + l'.length := by
      rw [List.length_cons]
      omega
    rw [harith]
    exact ih hy'

theorem chainTo_keys {g : DepGraph} {a b : String} {l : List String}
    (h : ChainTo g a l b) : ∀ x ∈ (a :: l).dropLast, x ∈ keysOf g := by
  induction h with
  | nil x => simp
  | @cons x y' b' l' hstep hch' ih =>
    intro z hz
    rw [List.dropLast_cons₂] at hz
    rcases List.mem_cons.1 hz with rfl | hz
    · exact depsOf_mem_key hstep
    · exact ih z hz

theorem nodup_chain_bound {g : DepGraph} {a b : String} {l : List String}
    (h : ChainTo g a l b) (hnd : (a :: l).Nodup) : l.length ≤ g.length := by
  classical
  have h1 : ∀ x ∈ (a :: l).dropLast, x ∈ keysOf g := chainTo_keys h
  have h2 : ((a :: l).dropLast).Nodup := (List.dropLast_sublist _).nodup hnd
  have h3 : ((a :: l).dropLast).length = l.length := by
    simp [List.length_dropLast]
  have h4 : ((a :: l).dropLast).toFinset.card = l.length := by
    rw [List.toFinset_card_of_nodup h2, h3]
  have h5 : ((a :: l).dropLast).toFinset ⊆ (keysOf g).toFinset := by
    intro x hx
    rw [List.mem_toFinset] at hx ⊢
    exact h1 x hx
  have h6 := Finset.card_le_card h5
  rw [h4, List.card_toFinset] at h6
  have h7 : (keysOf g).dedup.length ≤ (keysOf g).length :=
    (List.dedup_sublist _).length_le
  have h8 : (keysOf g).length = g.length := by
    simp [keysOf]
  omega

theorem chainTo_from_mem {g : DepGraph} {b : String} :
    ∀ {x : String} {l : List String}, ChainTo g x l b →
      ∀ x' ∈ x :: l, ∃ l', ChainTo g x' l' b ∧ (x' :: l') <:+ (x :: l) := by
  intro x l h
  induction h with
  | nil z =>
    intro x' hx'
    rw [List.mem_singleton] at hx'
    subst hx'
    exact ⟨[], ChainTo.nil x', List.suffix_rfl⟩
  | @cons z y' b' l' hstep hch' ih =>
    intro x' hx'
    rcases List.mem_cons.1 hx' with rfl | hx'
    · exact ⟨y' :: l', ChainTo.cons hstep hch', List.suffix_rfl⟩
    · obtain ⟨l'', hch'', hsuf⟩ := ih x' hx'
      exact ⟨l'', hch'', hsuf.trans (List.suffix_cons _ _)⟩

theorem chainTo_nodup {g : DepGraph} {b : String} :
    ∀ (n : Nat) {x : String} {l : List String}, l.length ≤ n →
      ChainTo g x l b → ∃ l', ChainTo g x l' b ∧ (x :: l').Nodup := by
  intro n
  induction n with
  | zero =>
    intro x l hlen hch
    have hl : l = [] := List.eq_nil_of_length_eq_zero (Nat.le_zero.1 hlen)
    subst hl
    cases hch
    exact ⟨[], ChainTo.nil _, by simp⟩
  | succ n ih =>
    intro x l hlen hch
    cases hch with
    | nil => exact ⟨[], ChainTo.nil _, by simp⟩
    | @cons _ y' b' l' hstep hch' =>
      have hlen' : l'.length ≤ n := by
        rw [List.length_cons] at hlen
        omega
      obtain ⟨l₁, hch₁, hnd₁⟩ := ih hlen' hch'
      by_cases hx : x ∈ y' :: l₁
      · obtain ⟨l₂, hch₂, hsuf⟩ := chainTo_from_mem hch₁ x hx
        exact ⟨l₂, hch₂, hsuf.sublist.nodup hnd₁⟩
      · exact ⟨y' :: l₁, ChainTo.cons hstep hch₁, by
          rw [List.nodup_cons]
          exact ⟨hx, hnd₁⟩⟩

theorem canReach_iff (g : DepGraph) (a b : String) :
    canReach g a b = true ↔ ∃ l, ChainTo g a l b := by
  unfold canReach
  rw [decide_eq_true_eq]
  constructor
  · exact fun h => reachList_sound h
  · rintro ⟨l, hch⟩
    obtain ⟨l', hch', hnd'⟩ := chainTo_nodup l.length (le_refl _) hch
    have hb := nodup_chain_bound hch' hnd'
    have h0 : a ∈ reachList g a 0 := by
      rw [show reachList g a 0 = [a] from rfl]
      exact List.mem_singleton.2 rfl
    have hreach := reachList_complete hch' h0
    exact reachList_le (by omega) hreach

theorem depsOf_addDep_self {g : DepGraph} {taskId : String}
    (depId : String) (hmem : taskId ∈ keysOf g) :
    depsOf (g.map (fun kv =>
      if kv.1 = taskId then (kv.1, kv.2 ++ [depId]) else kv)) taskId =
      depsOf g taskId ++ [depId] := by
  induction g with
  | nil => exact absurd hmem (by simp [keysOf])
  | cons kv rest ih =>
    obtain ⟨k, ds⟩ := kv
    rw [List.map_cons]
    by_cases hk : k = taskId
    · subst hk
      dsimp only
      rw [if_pos rfl, depsOf_cons, if_pos rfl, depsOf_cons, if_pos rfl]
    · have hmem' : taskId ∈ keysOf rest := by
        rcases List.mem_cons.1 hmem with h | h
        · exact absurd h.symm hk
        · exact h
      dsimp only
      rw [if_neg hk, depsOf_cons, if_neg hk, depsOf_cons, if_neg hk]
      exact ih hmem'

theorem depsOf_addDep_other {g : DepGraph} {taskId x : String}
    (depId : String) (hne : x ≠ taskId) :
    depsOf (g.map (fun kv =>
      if kv.1 = taskId then (kv.1, kv.2 ++ [depId]) else kv)) x =
      depsOf g x := by
  induction g with
  | nil => rfl
  | cons kv rest ih =>
    obtain ⟨k, ds⟩ := kv
    rw [List.map_cons]
    by_cases hk : k = taskId
    · subst hk
      have hkx : ¬ k = x := fun he => hne he.symm
      dsimp only
      rw [if_pos rfl, depsOf_cons, if_neg hkx, depsOf_cons, if_neg hkx]
      exact ih
    · dsimp only
      rw [if_neg hk, depsOf_cons, depsOf_cons]
      by_cases hkx : k = x
      · rw [if_pos hkx, if_pos hkx]
      · rw [if_neg hkx, if_neg hkx]
        exact ih

theorem keysOf_addDep (g : DepGraph) (taskId depId : String) :
    keysOf (g.map (fun kv =>
      if kv.1 = taskId then (kv.1, kv.2 ++ [depId]) else kv)) = keysOf g := by
  unfold keysOf
  rw [List.map_map]
  refine List.map_congr_left ?_
  intro kv _
  by_cases hk : kv.1 = taskId <;> simp [hk]

/-- C1 (modelled from the spec, since addTaskDependency is absent from the
sources): when the store already holds a dependency chain from depId back
to taskId (including depId = taskId), addTaskDependency rejects with
CircularDependencyError and the store is returned unchanged; when no such
chain exists, it appends depId to the task's dependsOn set and leaves
every other task untouched. -/
theorem addTaskDependency_correct (g : DepGraph) (taskId depId : String)
    (hmem : taskId ∈ keysOf g) :
    ((∃ l, ChainTo g depId l taskId) →
      addTaskDependency g taskId depId = .circular g) ∧
    ((¬ ∃ l, ChainTo g depId l taskId) →
      ∃ g', addTaskDependency g taskId depId = .ok g' ∧
        depsOf g' taskId = depsOf g taskId ++ [depId] ∧
        (∀ x, x ≠ taskId → depsOf g' x = depsOf g x) ∧
        keysOf g' = keysOf g) := by
  constructor
  · intro hch
    unfold addTaskDependency
    rw [if_pos ((canReach_iff g depId taskId).2 hch)]
  · intro hnch
    unfold addTaskDependency
    rw [if_neg (fun hc => hnch ((canReach_iff g depId taskId).1 hc))]
    cases hf : g.find? (fun kv => kv.1 == taskId) with
    | none =>
      exfalso
      obtain ⟨kv, hkv, heq⟩ := List.mem_map.1 hmem
      have := List.find?_eq_none.1 hf kv hkv
      rw [heq] at this
      exact this (by simp)
    | some kv =>
      exact ⟨_, rfl, depsOf_addDep_self depId hmem,
        fun x hx => depsOf_addDep_other depId hx,
        keysOf_addDep g taskId depId⟩

theorem addTaskDependency_correct_witness :
    addTaskDependency exDepGraph "b" "a" = .circular exDepGraph ∧
    (∃ g', addTaskDependency exDepGraph "a" "c" = .ok g' ∧
      depsOf g' "a" = depsOf exDepGraph "a" ++ ["c"] ∧
      (∀ x, x ≠ "a" → depsOf g' x = depsOf exDepGraph x) ∧
      keysOf g' = keysOf exDepGraph) :=
  ⟨(addTaskDependency_correct exDepGraph "b" "a" (by decide)).1
      ⟨["b"], ChainTo.cons (by decide) (ChainTo.nil "b")⟩,
    (addTaskDependency_correct exDepGraph "a" "c" (by decide)).2
      (fun hch =>
        absurd ((canReach_iff exDepGraph "c" "a").2 hch) (by decide))⟩

end DysonSwarm
